import Mathlib

/-
Verification of the fuzzcheck-rs core against its specification.

Shallow embedding of:
  * src/fuzzcheck/src/mutators/char.rs      (CharWithinRangeMutator)
  * src/fuzzcheck/src/mutators/either.rs    (Either<M1, M2> mutator dispatch)
  * src/fuzzcheck/src/data_structures.rs    (LargeStepFindIter, WeightedIndex, HBitSet)
  * src/fuzzcheck/src/code_coverage_sensor/mod.rs (feature iteration)
  * src/cargo-fuzzcheck/src/lib.rs          (input minification, first phase)

Rust machine integers are modelled as Nat with explicit `% 2 ^ 32` / `% 2 ^ 64`
wrapping where the source relies on wrapping arithmetic.  Panics and
`unreachable!()` arms are modelled as `Option`/`Except` failure values.
Random draws (`self.rng`) are modelled as explicit oracle arguments.
-/

namespace Fuzzcheck

/-! ### char.rs : CharWithinRangeMutator -/

/-- A `std::ops::Bound<char>` value, as seen through `RangeBounds<char>`
(`start_bound` / `end_bound`).  The payload is the char as a `u32` code point. -/
inductive CBound where
  | included : Nat → CBound
  | excluded : Nat → CBound
  | unbounded : CBound
deriving DecidableEq

/-- The distinct panics that `CharWithinRangeMutator::new` can raise:
the two `assert_ne!` guards on the excluded bounds, and the
reversed-range `panic!` whose guard is `if !start <= end`. -/
inductive CharNewPanic where
  | assertStartNeMax
  | assertEndNeMin
  | reversedRange
deriving DecidableEq

/-- Largest `u32` value. -/
def u32Max : Nat := 2 ^ 32 - 1

/-- Bitwise negation of a `u32` (the unary `!` operator of Rust on `u32`). -/
def not32 (x : Nat) : Nat := u32Max - x

/-- The mutator state built by `CharWithinRangeMutator::new`.
The `rng` field is omitted: random draws are passed as oracle arguments to the
random operations.  `cplx` is the constant complexity (`8.0` in the source),
modelled as a rational. -/
structure CharWithinRangeMutator where
  start_range : Nat
  len_range : Nat
  cplx : ℚ
deriving DecidableEq

/-- The `start` computation of `CharWithinRangeMutator::new`
(`match range.start_bound()`), including the `assert_ne!(*b as u32, u32::MAX)`
on an excluded bound. -/
def cBoundStart : CBound → Except CharNewPanic Nat
  | .included b => .ok b
  | .excluded b => if b = u32Max then .error .assertStartNeMax else .ok (b + 1)
  | .unbounded => .ok 0

/-- The `end` computation of `CharWithinRangeMutator::new`
(`match range.end_bound()`), including the `assert_ne!(*b as u32, u32::MIN)`
on an excluded bound. -/
def cBoundEnd : CBound → Except CharNewPanic Nat
  | .included b => .ok b
  | .excluded b => if b = 0 then .error .assertEndNeMin else .ok (b - 1)
  | .unbounded => .ok u32Max

/-- `CharWithinRangeMutator::new`.  Note the guard of the reversed-range panic
is literally `if !start <= end`, i.e. `(!start) <= end` with bitwise negation,
and `len_range` is `end.wrapping_sub(start)`. -/
def charNew (startB endB : CBound) : Except CharNewPanic CharWithinRangeMutator :=
  match cBoundStart startB with
  | .error p => .error p
  | .ok start =>
    match cBoundEnd endB with
    | .error p => .error p
    | .ok e =>
      if not32 start ≤ e then
        .error .reversedRange
      else
        .ok { start_range := start, len_range := (e + 2 ^ 32 - start) % 2 ^ 32, cplx := 8 }

/-- Validity of a `Bound<char>` payload: a Rust `char` code point is at most
`0x10FFFF`.  (Surrogate exclusion is irrelevant to `new`.) -/
def IsCharBound : CBound → Prop
  | .included c => c ≤ 0x10FFFF
  | .excluded c => c ≤ 0x10FFFF
  | .unbounded => True

/-- `char::from_u32 : u32 -> Option<char>`: valid code points are those below
`0x110000` that are not UTF-16 surrogates.  The result is kept as a `Nat`
code point. -/
def charFromU32 (n : Nat) : Option Nat :=
  if n < 0x110000 ∧ ¬(0xD800 ≤ n ∧ n ≤ 0xDFFF) then some n else none

/-- Modelled from the spec: `binary_search_arbitrary_u32` lives in
`src/fuzzcheck/src/mutators/integer.rs`, which is not among the provided
source files.  The spec describes it as a binary-search permutation of the
range `[low, high]` that "visits the midpoint first, then recursive
midpoints", covering the range uniformly at all prefix lengths.  This is the
breadth-first midpoint enumeration: output the midpoint of the interval at
the head of the queue, then enqueue its two (nonempty) half intervals.
The fuel argument bounds the number of produced elements; every processed
interval is nonempty, so `high + 1 - low` elements are produced in total. -/
def midEnumGo : Nat → List (Nat × Nat) → List Nat
  | 0, _ => []
  | _ + 1, [] => []
  | fuel + 1, (lo, hi) :: rest =>
    let mid := lo + (hi - lo) / 2
    let pushLeft := if lo < mid then [(lo, mid - 1)] else []
    let pushRight := if mid < hi then [(mid + 1, hi)] else []
    mid :: midEnumGo fuel (rest ++ pushLeft ++ pushRight)

/-- Modelled from the spec: step-indexed access into the breadth-first
midpoint enumeration of `[low, high]` (see `midEnumGo`). -/
def binary_search_arbitrary_u32 (low high step : Nat) : Nat :=
  (midEnumGo (high + 1 - low) [(low, high)]).getD step (high + 1)

/-- `CharWithinRangeMutator::validate_value`: accepts exactly the values in
`start_range ..= start_range + len_range` and yields the unit cache together
with `INITIAL_MUTATION_STEP = 0`.  The addition `start_range + len_range` is
`u32` addition (wrapping in release builds). -/
def charValidateValue (m : CharWithinRangeMutator) (value : Nat) :
    Option (Unit × Nat) :=
  if m.start_range ≤ value ∧ value ≤ (m.start_range + m.len_range) % 2 ^ 32 then
    some ((), 0)
  else
    none

/-- `CharWithinRangeMutator::ordered_arbitrary`.  Returns the produced value
(if any) together with the final value of the `&mut step` argument.
A `None` from `char::from_u32` advances the step once more and retries. -/
def charOrderedArbitrary (m : CharWithinRangeMutator) (step : Nat) (max_cplx : ℚ) :
    Option (Nat × ℚ) × Nat :=
  if max_cplx < m.cplx then (none, step)
  else if h : m.len_range < step then (none, step)
  else
    match charFromU32 ((m.start_range + binary_search_arbitrary_u32 0 m.len_range step) % 2 ^ 32) with
    | some c => (some (c, m.cplx), step + 1)
    | none => charOrderedArbitrary m (step + 2) max_cplx
termination_by m.len_range + 2 - step

/-- `CharWithinRangeMutator::random_mutate`.  The rng draw is the oracle
argument `draw` (the source draws uniformly from
`start_range ..= start_range.wrapping_add(len_range)`).  Returns
`((token, cplx), new_value, cache)`: the token is the old value
(`std::mem::replace`), and an invalid draw keeps the old value
(`unwrap_or(*value)`).  The unit cache is passed through untouched. -/
def charRandomMutate (m : CharWithinRangeMutator) (value : Nat) (cache : Unit)
    (draw : Nat) : (Nat × ℚ) × Nat × Unit :=
  match charFromU32 draw with
  | some c => ((value, m.cplx), c, cache)
  | none => ((value, m.cplx), value, cache)

/-- `CharWithinRangeMutator::unmutate`: `*value = t`. -/
def charUnmutate (m : CharWithinRangeMutator) (value : Nat) (cache : Unit)
    (t : Nat) : Nat × Unit :=
  (t, cache)

/-- The mutator produced by `CharWithinRangeMutator::new('a' ..= 'z')`:
`start_range = 97`, `len_range = 25`, complexity `8.0`. -/
def charMutAZ : CharWithinRangeMutator :=
  { start_range := 97, len_range := 25, cplx := 8 }

/-! ### either.rs : Either<M1, M2> as a Mutator<T> -/

/-- The `Either` enum of either.rs. -/
inductive Either (L R : Type) where
  | left : L → Either L R
  | right : R → Either L R
deriving DecidableEq

/-- Abstract model of the `Mutator<T>` trait surface used by the
`impl Mutator<T> for Either<M1, M2>`.  Type parameters: value `T`, cache `C`,
mutation step `MS`, arbitrary step `AS`, unmutate token `K`, complexity `X`
(`f64` in the source, kept abstract since the dispatch code never computes
with it), rng oracle `R`, subvalue provider `SV`, and visitor state `V` (the
`&mut dyn FnMut(&dyn Any, f64)` visitor of `visit_subvalues`, kept abstract
and threaded through as state).  `&mut` arguments are modelled by returning
the updated values alongside the result. -/
structure MModel (T C MS AS K X R SV V : Type) where
  default_arbitrary_step : AS
  is_valid : T → Bool
  validate_value : T → Option C
  default_mutation_step : T → C → MS
  global_search_space_complexity : X
  max_complexity : X
  min_complexity : X
  complexity : T → C → X
  ordered_arbitrary : AS → X → Option (T × X) × AS
  random_arbitrary : X → R → T × X
  ordered_mutate : T → C → MS → SV → X → Option ((K × X) × T × C × MS)
  random_mutate : T → C → X → R → (K × X) × T × C
  unmutate : T → C → K → T × C
  visit_subvalues : T → C → V → V

/-- An `Either<M1, M2>` mutator over the same value type `T`. -/
abbrev EM (T C1 C2 MS1 MS2 AS1 AS2 K1 K2 X R SV V : Type) :=
  Either (MModel T C1 MS1 AS1 K1 X R SV V) (MModel T C2 MS2 AS2 K2 X R SV V)

section EitherImpl

variable {T C1 C2 MS1 MS2 AS1 AS2 K1 K2 X R SV V : Type}

/-- The `Either::Left` mutator; the second argument only pins the type of the
inactive right-hand mutator. -/
def eLeftOf (m1 : MModel T C1 MS1 AS1 K1 X R SV V) (_m2 : MModel T C2 MS2 AS2 K2 X R SV V) :
    EM T C1 C2 MS1 MS2 AS1 AS2 K1 K2 X R SV V :=
  .left m1

/-- The `Either::Right` mutator; the first argument only pins the type of the
inactive left-hand mutator. -/
def eRightOf (_m1 : MModel T C1 MS1 AS1 K1 X R SV V) (m2 : MModel T C2 MS2 AS2 K2 X R SV V) :
    EM T C1 C2 MS1 MS2 AS1 AS2 K1 K2 X R SV V :=
  .right m2

/-- `Either::default_arbitrary_step`: dispatch, wrap in the same variant. -/
def eDefaultArbitraryStep (m : EM T C1 C2 MS1 MS2 AS1 AS2 K1 K2 X R SV V) :
    Either AS1 AS2 :=
  match m with
  | .left m1 => .left m1.default_arbitrary_step
  | .right m2 => .right m2.default_arbitrary_step

/-- `Either::is_valid`: dispatch only. -/
def eIsValid (m : EM T C1 C2 MS1 MS2 AS1 AS2 K1 K2 X R SV V) (value : T) : Bool :=
  match m with
  | .left m1 => m1.is_valid value
  | .right m2 => m2.is_valid value

/-- `Either::validate_value`: dispatch, wrap the produced cache in the same
variant (the `?` early return maps over the underlying Option). -/
def eValidateValue (m : EM T C1 C2 MS1 MS2 AS1 AS2 K1 K2 X R SV V) (value : T) :
    Option (Either C1 C2) :=
  match m with
  | .left m1 => (m1.validate_value value).map .left
  | .right m2 => (m2.validate_value value).map .right

/-- `Either::default_mutation_step`: requires the cache to carry the same
variant; the mismatched combinations hit `unreachable!()`, modelled as
`none`. -/
def eDefaultMutationStep (m : EM T C1 C2 MS1 MS2 AS1 AS2 K1 K2 X R SV V)
    (value : T) (cache : Either C1 C2) : Option (Either MS1 MS2) :=
  match m, cache with
  | .left m1, .left c => some (.left (m1.default_mutation_step value c))
  | .right m2, .right c => some (.right (m2.default_mutation_step value c))
  | _, _ => none

/-- `Either::global_search_space_complexity`: dispatch only. -/
def eGlobalSearchSpaceComplexity (m : EM T C1 C2 MS1 MS2 AS1 AS2 K1 K2 X R SV V) : X :=
  match m with
  | .left m1 => m1.global_search_space_complexity
  | .right m2 => m2.global_search_space_complexity

/-- `Either::max_complexity`: dispatch only. -/
def eMaxComplexity (m : EM T C1 C2 MS1 MS2 AS1 AS2 K1 K2 X R SV V) : X :=
  match m with
  | .left m1 => m1.max_complexity
  | .right m2 => m2.max_complexity

/-- `Either::min_complexity`: dispatch only. -/
def eMinComplexity (m : EM T C1 C2 MS1 MS2 AS1 AS2 K1 K2 X R SV V) : X :=
  match m with
  | .left m1 => m1.min_complexity
  | .right m2 => m2.min_complexity

/-- `Either::complexity`: requires the cache to carry the same variant;
mismatches hit `unreachable!()`. -/
def eComplexity (m : EM T C1 C2 MS1 MS2 AS1 AS2 K1 K2 X R SV V)
    (value : T) (cache : Either C1 C2) : Option X :=
  match m, cache with
  | .left m1, .left c => some (m1.complexity value c)
  | .right m2, .right c => some (m2.complexity value c)
  | _, _ => none

/-- `Either::ordered_arbitrary`: requires the step to carry the same variant;
mismatches hit `unreachable!()`.  The updated `&mut step` is returned wrapped
in the same variant. -/
def eOrderedArbitrary (m : EM T C1 C2 MS1 MS2 AS1 AS2 K1 K2 X R SV V)
    (step : Either AS1 AS2) (max_cplx : X) :
    Option (Option (T × X) × Either AS1 AS2) :=
  match m, step with
  | .left m1, .left s =>
    let p := m1.ordered_arbitrary s max_cplx
    some (p.1, .left p.2)
  | .right m2, .right s =>
    let p := m2.ordered_arbitrary s max_cplx
    some (p.1, .right p.2)
  | _, _ => none

/-- `Either::random_arbitrary`: dispatch only. -/
def eRandomArbitrary (m : EM T C1 C2 MS1 MS2 AS1 AS2 K1 K2 X R SV V)
    (max_cplx : X) (r : R) : T × X :=
  match m with
  | .left m1 => m1.random_arbitrary max_cplx r
  | .right m2 => m2.random_arbitrary max_cplx r

/-- `Either::ordered_mutate`: requires cache and step to carry the same
variant; mismatches hit `unreachable!()`.  The underlying `Option` result is
passed through, with the token, updated cache, and updated step wrapped in the
same variant. -/
def eOrderedMutate (m : EM T C1 C2 MS1 MS2 AS1 AS2 K1 K2 X R SV V)
    (value : T) (cache : Either C1 C2) (step : Either MS1 MS2)
    (sv : SV) (max_cplx : X) :
    Option (Option ((Either K1 K2 × X) × T × Either C1 C2 × Either MS1 MS2)) :=
  match m, cache, step with
  | .left m1, .left c, .left s =>
    some ((m1.ordered_mutate value c s sv max_cplx).map
      (fun o => ((.left o.1.1, o.1.2), o.2.1, .left o.2.2.1, .left o.2.2.2)))
  | .right m2, .right c, .right s =>
    some ((m2.ordered_mutate value c s sv max_cplx).map
      (fun o => ((.right o.1.1, o.1.2), o.2.1, .right o.2.2.1, .right o.2.2.2)))
  | _, _, _ => none

/-- `Either::random_mutate`: requires the cache to carry the same variant;
mismatches hit `unreachable!()`. -/
def eRandomMutate (m : EM T C1 C2 MS1 MS2 AS1 AS2 K1 K2 X R SV V)
    (value : T) (cache : Either C1 C2) (max_cplx : X) (r : R) :
    Option ((Either K1 K2 × X) × T × Either C1 C2) :=
  match m, cache with
  | .left m1, .left c =>
    let p := m1.random_mutate value c max_cplx r
    some ((.left p.1.1, p.1.2), p.2.1, .left p.2.2)
  | .right m2, .right c =>
    let p := m2.random_mutate value c max_cplx r
    some ((.right p.1.1, p.1.2), p.2.1, .right p.2.2)
  | _, _ => none

/-- `Either::unmutate`: requires cache and token to carry the same variant;
mismatches hit `unreachable!()`. -/
def eUnmutate (m : EM T C1 C2 MS1 MS2 AS1 AS2 K1 K2 X R SV V)
    (value : T) (cache : Either C1 C2) (t : Either K1 K2) :
    Option (T × Either C1 C2) :=
  match m, cache, t with
  | .left m1, .left c, .left t1 =>
    let p := m1.unmutate value c t1
    some (p.1, .left p.2)
  | .right m2, .right c, .right t2 =>
    let p := m2.unmutate value c t2
    some (p.1, .right p.2)
  | _, _, _ => none

/-- `Either::visit_subvalues`: requires the cache to carry the same variant;
mismatches hit `unreachable!()`.  The `&mut dyn FnMut(&dyn Any, f64)` visitor
is modelled as a state of abstract type `V` threaded through the call. -/
def eVisitSubvalues (m : EM T C1 C2 MS1 MS2 AS1 AS2 K1 K2 X R SV V)
    (value : T) (cache : Either C1 C2) (visit : V) : Option V :=
  match m, cache with
  | .left m1, .left c => some (m1.visit_subvalues value c visit)
  | .right m2, .right c => some (m2.visit_subvalues value c visit)
  | _, _ => none

/-- The round-trip law for an abstract mutator model: on a validated
(value, cache) pair, `unmutate` after `random_mutate` restores the pair
exactly. -/
def MRoundTrip {T C MS AS K X R SV V : Type} (M : MModel T C MS AS K X R SV V) : Prop :=
  ∀ (v : T) (c : C) (x : X) (r : R),
    M.validate_value v = some c →
    M.unmutate (M.random_mutate v c x r).2.1 (M.random_mutate v c x r).2.2
      (M.random_mutate v c x r).1.1 = (v, c)

/-- The round-trip law for an `Either` mutator, phrased through the
panic-aware dispatch operations. -/
def ERoundTrip (em : EM T C1 C2 MS1 MS2 AS1 AS2 K1 K2 X R SV V) : Prop :=
  ∀ (v : T) (ec : Either C1 C2) (x : X) (r : R)
    (out : (Either K1 K2 × X) × T × Either C1 C2),
    eValidateValue em v = some ec →
    eRandomMutate em v ec x r = some out →
    eUnmutate em out.2.1 out.2.2 out.1.1 = some (v, ec)

end EitherImpl

/-- A trivial concrete mutator model satisfying the round-trip law: the token
of a mutation is the previous value and `unmutate` restores it. -/
def idMM : MModel Nat Unit Unit Unit Nat Unit Unit Unit Unit where
  default_arbitrary_step := ()
  is_valid := fun _ => true
  validate_value := fun _ => some ()
  default_mutation_step := fun _ _ => ()
  global_search_space_complexity := ()
  max_complexity := ()
  min_complexity := ()
  complexity := fun _ _ => ()
  ordered_arbitrary := fun s _ => (none, s)
  random_arbitrary := fun _ _ => (0, ())
  ordered_mutate := fun _ _ _ _ _ => none
  random_mutate := fun v _ _ _ => ((v, ()), v + 1, ())
  unmutate := fun _ _ t => (t, ())
  visit_subvalues := fun _ _ w => w

/-! ### data_structures.rs : WeightedIndex -/

/-- The loop of Rust `slice::binary_search_by` (the `base`/`size` formulation
used by the standard library of the period): while `size > 1`, probe
`mid = base + size / 2`; keep `base` on `Greater`, move it to `mid` otherwise;
`size -= size / 2`.  Out-of-range accesses (never reachable here) default
to 0. -/
def bsLoop (f : Nat → Ordering) (w : List Nat) (base sz : Nat) : Nat :=
  if sz ≤ 1 then base
  else
    bsLoop f w (if f (w.getD (base + sz / 2) 0) = .gt then base else base + sz / 2) (sz - sz / 2)
termination_by sz

/-- Rust `slice::binary_search_by`: `Ok(i)` when the final probe compares
`Equal`, otherwise `Err` of the insertion point. -/
def binary_search_by (f : Nat → Ordering) (w : List Nat) : Except Nat Nat :=
  if w.length = 0 then .error 0
  else
    match f (w.getD (bsLoop f w 0 w.length) 0) with
    | .eq => .ok (bsLoop f w 0 w.length)
    | .lt => .error (bsLoop f w 0 w.length + 1)
    | .gt => .error (bsLoop f w 0 w.length)

/-- The comparator of `WeightedIndex::sample`: a weight `<= chosen_weight`
compares Less, otherwise Greater; it never returns Equal. -/
def wiCmp (u : Nat) (w : Nat) : Ordering :=
  if w ≤ u then .lt else .gt

/-- `WeightedIndex::sample`: the uniform draw from the weight distribution is
the oracle argument `u`; the result is the `unwrap_err` of the binary search
(`none` models the panic on an `Ok`, which the comparator can never produce). -/
def weightedIndexSample (cumulative_weights : List Nat) (u : Nat) : Option Nat :=
  match binary_search_by (wiCmp u) cumulative_weights with
  | .error i => some i
  | .ok _ => none

/-! ### data_structures.rs : LargeStepFindIter -/

/-- Element access `*self.slice.get_unchecked(p)`; every access the iterator
performs is in bounds, the default value 0 is never produced. -/
def lsfiNth (xs : List Nat) (p : Nat) : Nat :=
  xs.getD p 0

/-- The loop body of `LargeStepFindIter::slow_find`, probing `fuel` positions
starting at `p`.  The iterator position is set to each probed index before the
predicate runs; `pos` is its value entering the loop (unchanged when the loop
body never runs).  Returns the found element (the first whose predicate is not
Less) together with the final position. -/
def slowFindGo (cmp : Nat → Ordering) (xs : List Nat) (p fuel pos : Nat) :
    Option Nat × Nat :=
  match fuel with
  | 0 => (none, pos)
  | fuel + 1 =>
    match cmp (lsfiNth xs p) with
    | .lt => slowFindGo cmp xs (p + 1) fuel p
    | _ => (some (lsfiNth xs p), p)

/-- `LargeStepFindIter::slow_find` over `start..end`; `pos` is the iterator
position entering the call. -/
def slowFind (cmp : Nat → Ordering) (xs : List Nat) (pos start e : Nat) :
    Option Nat × Nat :=
  slowFindGo cmp xs start (e - start) pos

/-- The while-loop of `LargeStepFindIter::find` (entered with the position
already advanced by the first jump) followed by the trailing slow find over
the last window when the jump went past the end.  On Less the position jumps
by the grown step; on Equal the element is returned; on Greater the window
`position - step + 1 .. position` is scanned, and when the scan fails the
position is reset to the window end before the next grown jump. -/
def findLoop (cmp : Nat → Ordering) (xs : List Nat) (pos step : Nat) :
    Option Nat × Nat :=
  if pos < xs.length then
    match cmp (lsfiNth xs pos) with
    | .lt => findLoop cmp xs (pos + (step + 8)) (step + 8)
    | .eq => (some (lsfiNth xs pos), pos)
    | .gt =>
      match slowFind cmp xs pos (pos - step + 1) pos with
      | (some x, q) => (some x, q)
      | (none, _) => findLoop cmp xs (pos + (step + 8)) (step + 8)
  else
    slowFind cmp xs pos (pos - step + 1) xs.length
termination_by xs.length - pos

/-- The state of a `LargeStepFindIter`: the borrowed sorted slice and the
cursor position, which persists across `find` calls. -/
structure LargeStepFindIter where
  slice : List Nat
  position : Nat

/-- `LargeStepFindIter::find`: try the element at the current position first
(when in bounds), returning it when the predicate is not Less; otherwise jump
by the initial step 8 and enter the loop.  Returns the result together with
the updated iterator. -/
def lsfiFind (it : LargeStepFindIter) (cmp : Nat → Ordering) :
    Option Nat × LargeStepFindIter :=
  if it.position < it.slice.length ∧ cmp (lsfiNth it.slice it.position) ≠ .lt then
    (some (lsfiNth it.slice it.position), it)
  else
    ((findLoop cmp it.slice (it.position + 8) 8).1,
      ⟨it.slice, (findLoop cmp it.slice (it.position + 8) 8).2⟩)

/-- Integer `Ord::cmp`: the predicate `|y| y.cmp(&t)` used by the tests and
the claims. -/
def natCmp (y t : Nat) : Ordering :=
  if y < t then .lt else if y = t then .eq else .gt

/-- A sorted slice on which `find` skips a matching element: the predicate
comparing to 50 maps the first eight elements to Less and the ninth (100, at
index 8, exactly one jump from a fresh cursor) to Greater. -/
def xsSkip : List Nat := [0, 1, 2, 3, 4, 5, 6, 7, 100]

/-- A sorted slice for the stateful counterexample: `[0..=7]`, then 100 at
index 8, then 101..=116. -/
def xsState : List Nat :=
  [0, 1, 2, 3, 4, 5, 6, 7, 100, 101, 102, 103, 104, 105, 106, 107,
   108, 109, 110, 111, 112, 113, 114, 115, 116]

/-- The slice of the source test `test_large_step_find_iter`:
`[0..=26, 89, 90, 91]`. -/
def xsTest : List Nat :=
  [0, 1, 2, 3, 4, 5, 6, 7, 8, 9, 10, 11, 12, 13, 14, 15, 16, 17, 18, 19,
   20, 21, 22, 23, 24, 25, 26, 89, 90, 91]

/-! ### code_coverage_sensor/mod.rs : feature iteration -/

/-- One `Coverage` entry as consumed by `iterate_over_collected_features`:
the dereferenced values of the single counters, and the computed values of
the expression counters.  The counter-expression formula (`exp.compute()`)
lives in llvm_coverage.rs, which is not among the provided sources, so each
expression counter is modelled by its computed value. -/
structure Coverage where
  single_counters : List Nat
  expression_counters : List Nat

/-- Emission over one counter sequence: a `(index, value)` feature for each
nonzero value, the index advancing by one for every counter, emitted or
not. -/
def emitNonzero (start : Nat) : List Nat → List (Nat × Nat)
  | [] => []
  | c :: rest => (if c ≠ 0 then [(start, c)] else []) ++ emitNonzero (start + 1) rest

/-- `CodeCoverageSensor::iterate_over_collected_features` for one function:
read the first single counter (`get_unchecked(0)`; `none` models the undefined
access when there are no single counters), return immediately when it is zero,
otherwise emit it and walk the remaining single counters and then the
expression counters in index order, emitting each nonzero value. -/
def iterateOverCollectedFeatures (cov : Coverage) (start : Nat) :
    Option (List (Nat × Nat)) :=
  match cov.single_counters with
  | [] => none
  | c0 :: rest =>
    if c0 = 0 then some []
    else some ((start, c0) ::
      (emitNonzero (start + 1) rest ++
        emitNonzero (start + 1 + rest.length) cov.expression_counters))

/-- The `index_ranges` construction of `CodeCoverageSensor::new`: each
function receives the closed interval `index ..= next_index - 1` where
`next_index` advances by the total number of its counters. -/
def indexRangesGo (index : Nat) : List Coverage → List (Nat × Nat)
  | [] => []
  | cov :: rest =>
    (index, index + cov.single_counters.length + cov.expression_counters.length - 1) ::
      indexRangesGo (index + cov.single_counters.length + cov.expression_counters.length) rest

/-- The `index_ranges` of the sensor, starting at index 0. -/
def indexRanges (cs : List Coverage) : List (Nat × Nat) :=
  indexRangesGo 0 cs

/-- Sensor-level feature iteration: function `i` is iterated starting at the
start of `index_ranges[i]`. -/
def sensorIterate (cs : List Coverage) (i : Nat) : Option (List (Nat × Nat)) :=
  match cs.get? i, (indexRanges cs).get? i with
  | some cov, some r => iterateOverCollectedFeatures cov r.1
  | _, _ => none

/-! ### data_structures.rs : HBitSet -/

/-- The state of an `HBitSet`: level (0 = `l0`, ..., 3 = `l3`) and word index
to 64-bit word value.  The fixed vector sizes (2^24, 2^18, 2^12, 2^6 words)
are implied by the capacity 2^30: every access performed for indices below
2^30 is in bounds, and levels above 3 or words beyond the vector sizes are
never written by `set`, so modelling the vectors as total functions is
exact. -/
def HBState := Nat → Nat → Nat

/-- The all-zero fresh `HBitSet::new()`. -/
def hbEmpty : HBState := fun _ _ => 0

/-- Overwrite one word. -/
def updW (s : HBState) (k a w : Nat) : HBState :=
  fun k2 a2 => if k2 = k ∧ a2 = a then w else s k2 a2

/-- One `*level.get_unchecked_mut(idx) |= 0b1 << bit` store. -/
def hbSetBit (s : HBState) (k a b : Nat) : HBState :=
  updW s k a (s k a ||| (1 <<< b))

/-- `HBitSet::set(idx)`: at each level, or the bit `idx % 64` into the word
`idx / 64` of the running index, then divide the index by 64. -/
def hbSet (s : HBState) (idx : Nat) : HBState :=
  hbSetBit
    (hbSetBit
      (hbSetBit
        (hbSetBit s 0 (idx / 64) (idx % 64))
        1 (idx / 64 / 64) (idx / 64 % 64))
      2 (idx / 64 / 64 / 64) (idx / 64 / 64 % 64))
    3 (idx / 64 / 64 / 64 / 64) (idx / 64 / 64 / 64 % 64)

/-- The elements emitted for one nonzero `l0` word during `drain`:
`element = word_index * 64`, then `f(element + bit)` for each set bit, in
ascending bit order. -/
def emitWord (a w : Nat) : List Nat :=
  ((List.range 64).filter (fun b => w.testBit b)).map (fun b => a * 64 + b)

/-- A window loop of `drain`: process the `len` words starting at absolute
index `a` in ascending order with the word drainer `g`, threading the state
and concatenating the emissions. -/
def winFold (g : HBState → Nat → HBState × List Nat) :
    HBState → Nat → Nat → HBState × List Nat
  | s, _, 0 => (s, [])
  | s, a, len + 1 =>
    let p := g s a
    let q := winFold g p.1 (a + 1) len
    (q.1, p.2 ++ q.2)

/-- A bit loop of `drain` over the word at level `lvl`, index `a`, with `r`
bits remaining (current bit `64 - r`).  The word is re-read from the live
state at each iteration, as in the source (`*map & (0b1 << bit)`); for each
set bit `bit` the child window starting at `a * 64 + bit` with length
`64 - bit` is drained by `g`. -/
def bitsFold (g : HBState → Nat → Nat → HBState × List Nat) (lvl a : Nat) :
    HBState → Nat → HBState × List Nat
  | s, 0 => (s, [])
  | s, r + 1 =>
    let b := 64 - (r + 1)
    if (s lvl a).testBit b then
      let p := g s (a * 64 + b) (64 - b)
      let q := bitsFold g lvl a p.1 r
      (q.1, p.2 ++ q.2)
    else
      bitsFold g lvl a s r

/-- `HBitSet::drain` processing of one word at level `k`, absolute index `a`:
a zero word is skipped (`continue`); a nonzero level-0 word emits its set bits
and is zeroed; a nonzero higher-level word runs the bit loop over its 64 bits,
draining child windows at the next lower level, and is then zeroed
(`*map = 0`). -/
def drainWord : Nat → HBState → Nat → HBState × List Nat
  | 0, s, a =>
    if s 0 a = 0 then (s, [])
    else (updW s 0 a 0, emitWord a (s 0 a))
  | k + 1, s, a =>
    if s (k + 1) a = 0 then (s, [])
    else
      let p := bitsFold
        (fun s2 c len => winFold (fun s3 c2 => drainWord k s3 c2) s2 c len)
        (k + 1) a s 64
      (updW p.1 (k + 1) a 0, p.2)

/-- `HBitSet::drain`: the outer loop over all 64 `l3` words, each handled
like a window word at level 3. -/
def drain (s : HBState) : HBState × List Nat :=
  winFold (fun s2 a => drainWord 3 s2 a) s 0 64

/-- Membership in the bit set: index `i` is present when its bit in its `l0`
word is set. -/
def hbLive (s : HBState) (i : Nat) : Bool :=
  (s 0 (i / 64)).testBit (i % 64)

/-- The ascending list of present indices in `[lo, lo + len)`. -/
def liveElems (s : HBState) (lo len : Nat) : List Nat :=
  ((List.range len).map (fun j => lo + j)).filter (hbLive s)

/-- The half of the level coherence that `drain` maintains mid-flight:
whenever a word below the top level is nonzero, the corresponding bit of its
parent word is set.  (`drain` zeroes children before parents, so the converse
direction breaks temporarily.) -/
def Covered (s : HBState) : Prop :=
  ∀ k, k < 3 → ∀ c, s k c ≠ 0 → (s (k + 1) (c / 64)).testBit (c % 64) = true

/-- All words are `u64` values. -/
def WordsBounded (s : HBState) : Prop :=
  ∀ k a, s k a < 2 ^ 64

/-- The words that a window drain at level `k` over the words `[a, a + len)`
may touch: levels `j ≤ k` of the subtrees of those words. -/
def InWin (k a len j c : Nat) : Prop :=
  j ≤ k ∧ a ≤ c / 64 ^ (k - j) ∧ c / 64 ^ (k - j) < a + len

/-- `s2` is zero on the region `P` and equals `s` outside it. -/
def ZeroDiff (s s2 : HBState) (P : Nat → Nat → Prop) : Prop :=
  (∀ j c, P j c → s2 j c = 0) ∧ (∀ j c, ¬ P j c → s2 j c = s j c)

/-- The specification of a single-word drainer at level `k`: on covered,
bounded states it emits exactly the present elements under the word, in
order, and zeroes exactly the subtree of the word. -/
def WordDrainSpec (k : Nat) (g : HBState → Nat → HBState × List Nat) : Prop :=
  ∀ s a, Covered s → WordsBounded s →
    (g s a).2 = liveElems s (a * 64 ^ (k + 1)) (64 ^ (k + 1)) ∧
    ZeroDiff s (g s a).1 (InWin k a 1)

/-- The specification of a window drainer at level `k`. -/
def WinDrainSpec (k : Nat) (g : HBState → Nat → Nat → HBState × List Nat) : Prop :=
  ∀ s a len, Covered s → WordsBounded s →
    (g s a len).2 = liveElems s (a * 64 ^ (k + 1)) (len * 64 ^ (k + 1)) ∧
    ZeroDiff s (g s a len).1 (InWin k a len)

/-! ### cargo-fuzzcheck lib.rs : input minification, first phase -/

/-- The panic of the `assert!` that requires the first `read` child to exit
with a failure status; its message states that the test case in the given
input file did not appear to trigger a test failure. -/
inductive MinifyPanic where
  | testCaseDidNotTriggerFailure
deriving DecidableEq

/-- Rust `str::splitn(2, "--")` restricted to what `simplest_input_file`
uses: the text before the first occurrence of `--`, or `none` when the
separator does not occur (in which case `splitn` yields a single component,
`name_components.len() == 2` fails, and the file is ignored). -/
def splitTwoDashGo : List Char → Option (List Char)
  | [] => none
  | c :: rest =>
    if c = '-' then
      match rest with
      | c2 :: _ => if c2 = '-' then some [] else (splitTwoDashGo rest).map (c :: ·)
      | [] => none
    else
      (splitTwoDashGo rest).map (c :: ·)

/-- The first of the two `splitn(2, "--")` components of a file stem, when
the stem contains the separator. -/
def firstComponentOfTwo (stem : String) : Option String :=
  (splitTwoDashGo stem.data).map (fun cs => ⟨cs⟩)

/-- The per-file step of `simplest_input_file`: the stem together with its
parsed complexity, for files whose stem splits in two around `--` and whose
first component parses as a float.  `parseF` is the oracle for
`str::parse::<f64>`, with finite `f64` values modelled as rationals. -/
def stemWithCplx (parseF : String → Option ℚ) (stem : String) :
    Option (String × ℚ) :=
  (firstComponentOfTwo stem).bind (fun c0 => (parseF c0).map (fun q => (stem, q)))

/-- Rust `Iterator::min_by` of the complexity comparison: the fold keeps the
earliest of equally-minimal elements (`min_by` returns the first minimum; the
comparison `partial_cmp(..).unwrap_or(Equal)` is the total order on ℚ). -/
def minByCplx : List (String × ℚ) → Option (String × ℚ)
  | [] => none
  | x :: rest => some (rest.foldl (fun acc y => if acc.2 > y.2 then y else acc) x)

/-- `simplest_input_file` over the stems of the files in the artifacts
folder. -/
def simplest_input_file (parseF : String → Option ℚ) (stems : List String) :
    Option String :=
  (minByCplx (stems.filterMap (stemWithCplx parseF))).map (fun x => x.1)

/-- The first phase of `input_minify_command`: pick the simplest artifact
file, falling back to the file to minify; launch the target binary with the
`read` command on it (`readExitSuccess` is the oracle for
`child.wait_with_output().status.success()`); `assert!` that the exit status
is a failure, i.e. a successful (zero) exit is the panic and only a nonzero
exit proceeds (to the minify loop) with the chosen file. -/
def inputMinifyFirstPhase (parseF : String → Option ℚ)
    (artifactStems : List String) (fileToMinify : String)
    (readExitSuccess : String → Bool) : Except MinifyPanic String :=
  let simplest := (simplest_input_file parseF artifactStems).getD fileToMinify
  if readExitSuccess simplest then
    .error .testCaseDidNotTriggerFailure
  else
    .ok simplest

/-- A concrete parse oracle for the witness. -/
def parseFW : String → Option ℚ :=
  fun s => if s = "1000" then some 1000 else if s = "3" then some 3 else none

/-! ### Theorems about char.rs -/

/-- Unfolding lemma for a successful step of `ordered_arbitrary`: when neither
guard fires and the code point is valid, the produced value and the advanced
step are returned. -/
theorem charOrderedArbitrary_some (m : CharWithinRangeMutator) (step : Nat) (mc : ℚ)
    (h1 : ¬ mc < m.cplx) (h2 : ¬ m.len_range < step) (c : Nat)
    (h3 : charFromU32 ((m.start_range + binary_search_arbitrary_u32 0 m.len_range step) % 2 ^ 32) =
      some c) :
    charOrderedArbitrary m step mc = (some (c, m.cplx), step + 1) := by
  rw [charOrderedArbitrary, if_neg h1, dif_neg h2, h3]

/-- Helper: `cBoundStart` yields a start of at most `0x110000` on char bounds. -/
theorem cBoundStart_ok_le (b : CBound) (hb : IsCharBound b) (s : Nat)
    (h : cBoundStart b = .ok s) : s ≤ 0x110000 := by
  cases b with
  | included c =>
    simp only [cBoundStart, Except.ok.injEq] at h
    subst h
    exact le_trans hb (by norm_num)
  | excluded c =>
    simp only [cBoundStart] at h
    split_ifs at h
    simp only [Except.ok.injEq] at h
    subst h
    have : c ≤ 0x10FFFF := hb
    omega
  | unbounded =>
    simp only [cBoundStart, Except.ok.injEq] at h
    omega

/-- Helper: the only panic of the start-bound computation is the
`assert_ne!` on `Excluded(u32::MAX)`. -/
theorem cBoundStart_error (b : CBound) (p : CharNewPanic)
    (h : cBoundStart b = .error p) : p = .assertStartNeMax := by
  cases b with
  | included c => simp [cBoundStart] at h
  | excluded c =>
    simp only [cBoundStart] at h
    split_ifs at h
    simp only [Except.error.injEq] at h
    exact h.symm
  | unbounded => simp [cBoundStart] at h

/-- Helper: `cBoundEnd` yields an end of at most `0x10FFFF` on bounded char
bounds. -/
theorem cBoundEnd_ok_le (b : CBound) (hb : IsCharBound b)
    (hne : b ≠ CBound.unbounded) (e : Nat)
    (h : cBoundEnd b = .ok e) : e ≤ 0x10FFFF := by
  cases b with
  | included c =>
    simp only [cBoundEnd, Except.ok.injEq] at h
    subst h
    exact hb
  | excluded c =>
    simp only [cBoundEnd] at h
    split_ifs at h
    simp only [Except.ok.injEq] at h
    subst h
    have : c ≤ 0x10FFFF := hb
    omega
  | unbounded => exact absurd rfl hne

/-- Helper: the only panic of the end-bound computation is the `assert_ne!`
on `Excluded(0)`. -/
theorem cBoundEnd_error (b : CBound) (p : CharNewPanic)
    (h : cBoundEnd b = .error p) : p = .assertEndNeMin := by
  cases b with
  | included c => simp [cBoundEnd] at h
  | excluded c =>
    simp only [cBoundEnd] at h
    split_ifs at h
    simp only [Except.error.injEq] at h
    exact h.symm
  | unbounded => simp [cBoundEnd] at h

/-- C10 (counterexample): the claim says the reversed-range panic branch of
`CharWithinRangeMutator::new` is unreachable for any char-typed bounds.  It is
reachable: an unbounded end bound (for example the range `'a'..`, a legitimate
`RangeBounds<char>`) makes `end = u32::MAX`, so `(!start) <= end` always holds
and `new` panics with the reversed-range message. -/
theorem c10_counterexample :
    charNew (CBound.included 97) CBound.unbounded =
      Except.error CharNewPanic.reversedRange := by
  rfl

/-- C10 (amended): whenever the end bound is `Included` or `Excluded` of an
actual char (code point at most 0x10FFFF), the reversed-range panic branch is
unreachable — even for a reversed range such as `'z'..='a'`, for which `new`
returns a mutator whose `len_range` is the wrapping subtraction
`97 - 122 mod 2^32 = 4294967271`.  With an unbounded end bound the panic fires
instead (see the counterexample). -/
theorem c10_no_reversed_range_panic (sb eb : CBound)
    (hs : IsCharBound sb) (he : IsCharBound eb) (hne : eb ≠ CBound.unbounded) :
    charNew sb eb ≠ Except.error CharNewPanic.reversedRange ∧
    charNew (CBound.included 122) (CBound.included 97) =
      Except.ok { start_range := 122, len_range := 4294967271, cplx := 8 } := by
  refine ⟨?_, by rfl⟩
  have hguard : ∀ start e : Nat, start ≤ 0x110000 → e ≤ 0x10FFFF → ¬ not32 start ≤ e := by
    intro start e h1 h2
    simp only [not32, u32Max]
    omega
  cases h1 : cBoundStart sb with
  | error p =>
    have hp := cBoundStart_error sb p h1
    subst hp
    simp [charNew, h1]
  | ok start =>
    cases h2 : cBoundEnd eb with
    | error p =>
      have hp := cBoundEnd_error eb p h2
      subst hp
      simp [charNew, h1, h2]
    | ok e =>
      have hstart := cBoundStart_ok_le sb hs start h1
      have hend := cBoundEnd_ok_le eb he hne e h2
      simp [charNew, h1, h2, hguard start e hstart hend]

/-- Witness for C10: the amended theorem applied to the reversed char range
`'z'..='a'`, whose bounds are both chars and whose end is bounded. -/
theorem c10_no_reversed_range_panic_witness :
    charNew (CBound.included 122) (CBound.included 97) ≠
      Except.error CharNewPanic.reversedRange :=
  (c10_no_reversed_range_panic (CBound.included 122) (CBound.included 97)
    (by show (122:Nat) ≤ 0x10FFFF; norm_num)
    (by show (97:Nat) ≤ 0x10FFFF; norm_num)
    (fun h => CBound.noConfusion h)).1

/-- C5: for `CharWithinRangeMutator::new('a'..='z')` and any `max_cplx ≥ 8`,
starting from the default arbitrary step 0, each of the first 26 calls to
`ordered_arbitrary` returns `Some` (the call with step `s < 26` yields the
code point `97 + binary_search_arbitrary_u32 0 25 s` and advances the step to
`s + 1`), the 26 produced characters are pairwise distinct, and the 27th call
(step 26) returns `None`. -/
theorem c5_ordered_arbitrary_az (max_cplx : ℚ) (hmc : 8 ≤ max_cplx) :
    charNew (CBound.included 97) (CBound.included 122) = Except.ok charMutAZ ∧
    (∀ s : Nat, s < 26 →
      charOrderedArbitrary charMutAZ s max_cplx =
        (some (97 + binary_search_arbitrary_u32 0 25 s, 8), s + 1)) ∧
    ((List.range 26).map (fun s => 97 + binary_search_arbitrary_u32 0 25 s)).Pairwise (· ≠ ·) ∧
    charOrderedArbitrary charMutAZ 26 max_cplx = (none, 26) := by
  have hvalid : ∀ s : Nat, s < 26 →
      charFromU32 ((97 + binary_search_arbitrary_u32 0 25 s) % 2 ^ 32) =
        some (97 + binary_search_arbitrary_u32 0 25 s) := by decide
  refine ⟨by rfl, ?_, by decide, ?_⟩
  · intro s hs
    exact charOrderedArbitrary_some charMutAZ s max_cplx
      (not_lt.2 hmc) (by show ¬ (25:Nat) < s; omega) _ (hvalid s hs)
  · rw [charOrderedArbitrary,
      if_neg (show ¬ max_cplx < charMutAZ.cplx from not_lt.2 hmc),
      dif_pos (show charMutAZ.len_range < 26 by norm_num [charMutAZ])]

/-- Witness for C5: the theorem applied at `max_cplx = 8` and step 0; the
first produced character is `'m'` (code point 109). -/
theorem c5_ordered_arbitrary_az_witness :
    charOrderedArbitrary charMutAZ 0 8 = (some (109, 8), 1) := by
  have h := (c5_ordered_arbitrary_az 8 (le_refl 8)).2.1 0 (by norm_num)
  rwa [(by decide : (97:Nat) + binary_search_arbitrary_u32 0 25 0 = 109)] at h

/-! ### Theorems about either.rs -/

/-- C6: every operation of `Either<M1, M2>` dispatches on the active variant;
with a same-variant companion cache/step/token it returns exactly the
underlying mutator's result with produced cache/step/token wrapped in the same
variant, and with an opposite-variant companion it panics (`unreachable!()`,
modelled as `none`). -/
theorem c6_either_dispatch
    (T C1 C2 MS1 MS2 AS1 AS2 K1 K2 X R SV V : Type)
    (m1 : MModel T C1 MS1 AS1 K1 X R SV V) (m2 : MModel T C2 MS2 AS2 K2 X R SV V)
    (v : T) (c1 : C1) (c2 : C2) (s1 : MS1) (s2 : MS2) (a1 : AS1) (a2 : AS2)
    (k1 : K1) (k2 : K2) (x : X) (r : R) (sv : SV) (vis : V) :
    (eDefaultArbitraryStep (eLeftOf m1 m2) = .left m1.default_arbitrary_step) ∧
    (eDefaultArbitraryStep (eRightOf m1 m2) = .right m2.default_arbitrary_step) ∧
    (eIsValid (eLeftOf m1 m2) v = m1.is_valid v) ∧
    (eIsValid (eRightOf m1 m2) v = m2.is_valid v) ∧
    (eValidateValue (eLeftOf m1 m2) v = (m1.validate_value v).map .left) ∧
    (eValidateValue (eRightOf m1 m2) v = (m2.validate_value v).map .right) ∧
    (eDefaultMutationStep (eLeftOf m1 m2) v (.left c1) =
      some (.left (m1.default_mutation_step v c1))) ∧
    (eDefaultMutationStep (eLeftOf m1 m2) v (.right c2) = none) ∧
    (eDefaultMutationStep (eRightOf m1 m2) v (.right c2) =
      some (.right (m2.default_mutation_step v c2))) ∧
    (eDefaultMutationStep (eRightOf m1 m2) v (.left c1) = none) ∧
    (eGlobalSearchSpaceComplexity (eLeftOf m1 m2) = m1.global_search_space_complexity) ∧
    (eGlobalSearchSpaceComplexity (eRightOf m1 m2) = m2.global_search_space_complexity) ∧
    (eMaxComplexity (eLeftOf m1 m2) = m1.max_complexity) ∧
    (eMaxComplexity (eRightOf m1 m2) = m2.max_complexity) ∧
    (eMinComplexity (eLeftOf m1 m2) = m1.min_complexity) ∧
    (eMinComplexity (eRightOf m1 m2) = m2.min_complexity) ∧
    (eComplexity (eLeftOf m1 m2) v (.left c1) = some (m1.complexity v c1)) ∧
    (eComplexity (eLeftOf m1 m2) v (.right c2) = none) ∧
    (eComplexity (eRightOf m1 m2) v (.right c2) = some (m2.complexity v c2)) ∧
    (eComplexity (eRightOf m1 m2) v (.left c1) = none) ∧
    (eOrderedArbitrary (eLeftOf m1 m2) (.left a1) x =
      some ((m1.ordered_arbitrary a1 x).1, .left (m1.ordered_arbitrary a1 x).2)) ∧
    (eOrderedArbitrary (eLeftOf m1 m2) (.right a2) x = none) ∧
    (eOrderedArbitrary (eRightOf m1 m2) (.right a2) x =
      some ((m2.ordered_arbitrary a2 x).1, .right (m2.ordered_arbitrary a2 x).2)) ∧
    (eOrderedArbitrary (eRightOf m1 m2) (.left a1) x = none) ∧
    (eRandomArbitrary (eLeftOf m1 m2) x r = m1.random_arbitrary x r) ∧
    (eRandomArbitrary (eRightOf m1 m2) x r = m2.random_arbitrary x r) ∧
    (eOrderedMutate (eLeftOf m1 m2) v (.left c1) (.left s1) sv x =
      some ((m1.ordered_mutate v c1 s1 sv x).map
        (fun o => ((.left o.1.1, o.1.2), o.2.1, .left o.2.2.1, .left o.2.2.2)))) ∧
    (eOrderedMutate (eLeftOf m1 m2) v (.left c1) (.right s2) sv x = none) ∧
    (eOrderedMutate (eLeftOf m1 m2) v (.right c2) (.left s1) sv x = none) ∧
    (eOrderedMutate (eLeftOf m1 m2) v (.right c2) (.right s2) sv x = none) ∧
    (eOrderedMutate (eRightOf m1 m2) v (.right c2) (.right s2) sv x =
      some ((m2.ordered_mutate v c2 s2 sv x).map
        (fun o => ((.right o.1.1, o.1.2), o.2.1, .right o.2.2.1, .right o.2.2.2)))) ∧
    (eOrderedMutate (eRightOf m1 m2) v (.left c1) (.left s1) sv x = none) ∧
    (eOrderedMutate (eRightOf m1 m2) v (.left c1) (.right s2) sv x = none) ∧
    (eOrderedMutate (eRightOf m1 m2) v (.right c2) (.left s1) sv x = none) ∧
    (eRandomMutate (eLeftOf m1 m2) v (.left c1) x r =
      some ((.left (m1.random_mutate v c1 x r).1.1, (m1.random_mutate v c1 x r).1.2),
        (m1.random_mutate v c1 x r).2.1, .left (m1.random_mutate v c1 x r).2.2)) ∧
    (eRandomMutate (eLeftOf m1 m2) v (.right c2) x r = none) ∧
    (eRandomMutate (eRightOf m1 m2) v (.right c2) x r =
      some ((.right (m2.random_mutate v c2 x r).1.1, (m2.random_mutate v c2 x r).1.2),
        (m2.random_mutate v c2 x r).2.1, .right (m2.random_mutate v c2 x r).2.2)) ∧
    (eRandomMutate (eRightOf m1 m2) v (.left c1) x r = none) ∧
    (eUnmutate (eLeftOf m1 m2) v (.left c1) (.left k1) =
      some ((m1.unmutate v c1 k1).1, .left (m1.unmutate v c1 k1).2)) ∧
    (eUnmutate (eLeftOf m1 m2) v (.left c1) (.right k2) = none) ∧
    (eUnmutate (eLeftOf m1 m2) v (.right c2) (.left k1) = none) ∧
    (eUnmutate (eLeftOf m1 m2) v (.right c2) (.right k2) = none) ∧
    (eUnmutate (eRightOf m1 m2) v (.right c2) (.right k2) =
      some ((m2.unmutate v c2 k2).1, .right (m2.unmutate v c2 k2).2)) ∧
    (eUnmutate (eRightOf m1 m2) v (.left c1) (.left k1) = none) ∧
    (eUnmutate (eRightOf m1 m2) v (.left c1) (.right k2) = none) ∧
    (eUnmutate (eRightOf m1 m2) v (.right c2) (.left k1) = none) ∧
    (eVisitSubvalues (eLeftOf m1 m2) v (.left c1) vis =
      some (m1.visit_subvalues v c1 vis)) ∧
    (eVisitSubvalues (eLeftOf m1 m2) v (.right c2) vis = none) ∧
    (eVisitSubvalues (eRightOf m1 m2) v (.right c2) vis =
      some (m2.visit_subvalues v c2 vis)) ∧
    (eVisitSubvalues (eRightOf m1 m2) v (.left c1) vis = none) := by
  repeat constructor

/-- C1: the round-trip law.  First conjunct: `CharWithinRangeMutator`
satisfies it — for every validated value and every rng draw, `unmutate` after
`random_mutate` restores the (value, cache) pair exactly.  Second conjunct:
`Either<M1, M2>` over two mutators satisfying the law satisfies it as well,
whichever variant is active. -/
theorem c1_round_trip :
    (∀ (m : CharWithinRangeMutator) (v draw st : Nat) (cache : Unit),
      charValidateValue m v = some (cache, st) →
      charUnmutate m (charRandomMutate m v cache draw).2.1
        (charRandomMutate m v cache draw).2.2
        (charRandomMutate m v cache draw).1.1 = (v, cache)) ∧
    (∀ (T C1 C2 MS1 MS2 AS1 AS2 K1 K2 X R SV V : Type)
      (m1 : MModel T C1 MS1 AS1 K1 X R SV V) (m2 : MModel T C2 MS2 AS2 K2 X R SV V),
      MRoundTrip m1 → MRoundTrip m2 →
      ERoundTrip (eLeftOf m1 m2) ∧ ERoundTrip (eRightOf m1 m2)) := by
  constructor
  · intro m v draw st cache _hval
    cases h : charFromU32 draw with
    | none => simp [charRandomMutate, charUnmutate, h]
    | some c => simp [charRandomMutate, charUnmutate, h]
  · intro T C1 C2 MS1 MS2 AS1 AS2 K1 K2 X R SV V m1 m2 h1 h2
    constructor
    · intro v ec x r out hval hmut
      simp only [eLeftOf, eValidateValue, Option.map_eq_some'] at hval
      obtain ⟨c, hc, rfl⟩ := hval
      simp only [eLeftOf, eRandomMutate, Option.some.injEq] at hmut
      subst hmut
      simp only [eLeftOf, eUnmutate]
      have := h1 v c x r hc
      simp only [this]
    · intro v ec x r out hval hmut
      simp only [eRightOf, eValidateValue, Option.map_eq_some'] at hval
      obtain ⟨c, hc, rfl⟩ := hval
      simp only [eRightOf, eRandomMutate, Option.some.injEq] at hmut
      subst hmut
      simp only [eRightOf, eUnmutate]
      have := h2 v c x r hc
      simp only [this]

/-! ### Theorems about data_structures.rs (WeightedIndex, LargeStepFindIter) -/

/-- Loop invariant of `slice::binary_search_by` with the WeightedIndex
comparator over a nondecreasing weight list: starting from a window
`[base, base + sz)` whose left context is all `≤ u` and whose right context is
all `> u`, the loop lands on an index whose strict left part is all `≤ u` and
whose strict right part is all `> u`. -/
theorem bsLoop_wi (w : List Nat) (u : Nat)
    (hmono : ∀ j, j < w.length → ∀ i, i ≤ j → w.getD i 0 ≤ w.getD j 0) :
    ∀ sz base, 1 ≤ sz → base + sz ≤ w.length →
      (∀ j, j < base → w.getD j 0 ≤ u) →
      (∀ j, base + sz ≤ j → j < w.length → u < w.getD j 0) →
      bsLoop (wiCmp u) w base sz < w.length ∧
      (∀ j, j < bsLoop (wiCmp u) w base sz → w.getD j 0 ≤ u) ∧
      (∀ j, bsLoop (wiCmp u) w base sz < j → j < w.length → u < w.getD j 0) := by
  intro sz
  induction sz using Nat.strong_induction_on with
  | _ sz ih =>
    intro base h1 hlen hlow hhigh
    rw [bsLoop]
    by_cases hsz : sz ≤ 1
    · rw [if_pos hsz]
      have hsz1 : sz = 1 := le_antisymm hsz h1
      subst hsz1
      exact ⟨by omega, hlow, fun j hj hjlen => hhigh j (by omega) hjlen⟩
    · rw [if_neg hsz]
      have hmidlt : base + sz / 2 < w.length := by omega
      by_cases hgt : wiCmp u (w.getD (base + sz / 2) 0) = .gt
      · rw [if_pos hgt]
        have hmid : u < w.getD (base + sz / 2) 0 := by
          by_contra hc
          push_neg at hc
          simp only [wiCmp, if_pos hc] at hgt
          exact Ordering.noConfusion hgt
        exact ih (sz - sz / 2) (by omega) base (by omega) (by omega) hlow
          (fun j hj hjlen =>
            lt_of_lt_of_le hmid (hmono j hjlen (base + sz / 2) (by omega)))
      · rw [if_neg hgt]
        have hmid : w.getD (base + sz / 2) 0 ≤ u := by
          by_contra hc
          simp only [wiCmp, if_neg hc] at hgt
          exact hgt trivial
        exact ih (sz - sz / 2) (by omega) (base + sz / 2) (by omega) (by omega)
          (fun j hj => le_trans (hmono (base + sz / 2) hmidlt j (by omega)) hmid)
          (fun j hj hjlen => hhigh j (by omega) hjlen)

/-- C3: for every nondecreasing cumulative weight vector `w` and every drawn
value `u < *w.last()`, `WeightedIndex::sample` returns the smallest index `i`
with `w[i] > u`: the returned index is in bounds, `w[i] > u`, and every
earlier weight is `≤ u` (so `w[i-1] ≤ u` with `w[-1] = 0`). -/
theorem c3_weighted_index_sample (w : List Nat) (u : Nat)
    (hmono : ∀ j, j < w.length → ∀ i, i ≤ j → w.getD i 0 ≤ w.getD j 0)
    (hne : w ≠ []) (hlast : u < w.getD (w.length - 1) 0) :
    ∃ i, weightedIndexSample w u = some i ∧ i < w.length ∧
      u < w.getD i 0 ∧ ∀ j, j < i → w.getD j 0 ≤ u := by
  have hlen : 1 ≤ w.length := by
    cases w with
    | nil => exact absurd rfl hne
    | cons a l => simp
  obtain ⟨hb, hlow, hhigh⟩ := bsLoop_wi w u hmono w.length 0 hlen (by omega)
    (fun j hj => absurd hj (Nat.not_lt_zero j))
    (fun j hj hjlen => by omega)
  by_cases hle : w.getD (bsLoop (wiCmp u) w 0 w.length) 0 ≤ u
  · have hbne : bsLoop (wiCmp u) w 0 w.length + 1 < w.length := by
      rcases Nat.lt_or_ge (bsLoop (wiCmp u) w 0 w.length) (w.length - 1) with h | h
      · omega
      · have hbeq : bsLoop (wiCmp u) w 0 w.length = w.length - 1 := by omega
        rw [hbeq] at hle
        omega
    refine ⟨bsLoop (wiCmp u) w 0 w.length + 1, ?_, hbne, ?_, ?_⟩
    · simp only [weightedIndexSample, binary_search_by,
        if_neg (by omega : ¬ w.length = 0), wiCmp, if_pos hle]
    · exact hhigh _ (by omega) hbne
    · intro j hj
      rcases Nat.lt_or_ge j (bsLoop (wiCmp u) w 0 w.length) with h | h
      · exact hlow j h
      · have : j = bsLoop (wiCmp u) w 0 w.length := by omega
        rw [this]
        exact hle
  · push_neg at hle
    refine ⟨bsLoop (wiCmp u) w 0 w.length, ?_, hb, hle, hlow⟩
    simp only [weightedIndexSample, binary_search_by,
      if_neg (by omega : ¬ w.length = 0), wiCmp, if_neg (not_le.2 hle)]

/-- Witness for C3: the theorem applied to the cumulative weights
`[2, 5, 5, 9]` and the draw `u = 4`, which selects index 1. -/
theorem c3_weighted_index_sample_witness :
    ∃ i, weightedIndexSample [2, 5, 5, 9] 4 = some i ∧
      i < ([2, 5, 5, 9] : List Nat).length ∧
      4 < ([2, 5, 5, 9] : List Nat).getD i 0 ∧
      ∀ j, j < i → ([2, 5, 5, 9] : List Nat).getD j 0 ≤ 4 :=
  c3_weighted_index_sample [2, 5, 5, 9] 4 (by decide) (by decide) (by decide)

/-- C2 (the code evaluated at the failing input): on the sorted slice
`[0..=7, 100]` with the monotone predicate comparing to 50 (a Less prefix of
length 8, then Greater), a fresh `find` returns `None` even though the element
100 at index 8 matches (its predicate value is Greater).  The first jump lands
exactly on index 8; the backtrack window `[1, 8)` is all Less; the code then
resumes jumping instead of returning the Greater element. -/
theorem c2_find_skips_matching_element :
    (xsSkip.map (fun y => natCmp y 50) =
      [.lt, .lt, .lt, .lt, .lt, .lt, .lt, .lt, .gt]) ∧
    100 ∈ xsSkip ∧ natCmp 100 50 = .gt ∧
    (lsfiFind ⟨xsSkip, 0⟩ (fun y => natCmp y 50)).1 = none := by
  refine ⟨by decide, by decide, by decide, ?_⟩
  simp [lsfiFind, findLoop, slowFind, slowFindGo, lsfiNth, natCmp, xsSkip]

/-- C8 (the code evaluated at the failing input): the concrete scenario of the
source test holds on `[0..=26, 89, 90, 91]` (finds for 8, 9, 86 return 8, 9,
89), but the general claim fails: on the sorted slice `[0..=7, 100, 101..=116]`
a find for target 50 skips the first match 100 and returns 101 leaving the
cursor at index 9, after which a find for the present target 100 (previous
target 50 ≤ 100) returns `some 101`, not `some 100`. -/
theorem c8_stateful_find_overshoots :
    ((lsfiFind ⟨xsTest, 0⟩ (fun y => natCmp y 8)).1 = some 8 ∧
      (lsfiFind (lsfiFind ⟨xsTest, 0⟩ (fun y => natCmp y 8)).2
        (fun y => natCmp y 9)).1 = some 9 ∧
      (lsfiFind (lsfiFind (lsfiFind ⟨xsTest, 0⟩ (fun y => natCmp y 8)).2
        (fun y => natCmp y 9)).2 (fun y => natCmp y 86)).1 = some 89) ∧
    List.Sorted (· ≤ ·) xsState ∧ 100 ∈ xsState ∧ 50 ≤ 100 ∧
    (lsfiFind ⟨xsState, 0⟩ (fun y => natCmp y 50)).1 = some 101 ∧
    (lsfiFind ⟨xsState, 0⟩ (fun y => natCmp y 50)).2.position = 9 ∧
    (lsfiFind (lsfiFind ⟨xsState, 0⟩ (fun y => natCmp y 50)).2
      (fun y => natCmp y 100)).1 = some 101 := by
  refine ⟨⟨?_, ?_, ?_⟩, by decide, by decide, by decide, ?_, ?_, ?_⟩ <;>
    simp [lsfiFind, findLoop, slowFind, slowFindGo, lsfiNth, natCmp, xsTest, xsState]

/-! ### Theorems about the coverage sensor -/

/-- Defining equation of `emitNonzero` on a cons. -/
theorem emitNonzero_cons (start c : Nat) (l : List Nat) :
    emitNonzero start (c :: l) =
      (if c ≠ 0 then [(start, c)] else []) ++ emitNonzero (start + 1) l := rfl

/-- Emission over a concatenation splits at the length of the first part. -/
theorem emitNonzero_append (start : Nat) (l1 l2 : List Nat) :
    emitNonzero start (l1 ++ l2) =
      emitNonzero start l1 ++ emitNonzero (start + l1.length) l2 := by
  induction l1 generalizing start with
  | nil => simp [emitNonzero]
  | cons c rest ih =>
    rw [List.cons_append,
      show emitNonzero start (c :: (rest ++ l2)) =
        (if c ≠ 0 then [(start, c)] else []) ++ emitNonzero (start + 1) (rest ++ l2) from rfl,
      show emitNonzero start (c :: rest) =
        (if c ≠ 0 then [(start, c)] else []) ++ emitNonzero (start + 1) rest from rfl,
      ih (start + 1), List.append_assoc, List.length_cons,
      show start + 1 + rest.length = start + (rest.length + 1) from by omega]

/-- Every emitted feature has index at least the starting index. -/
theorem emitNonzero_fst_ge (l : List Nat) :
    ∀ start, ∀ x ∈ emitNonzero start l, start ≤ x.1 := by
  induction l with
  | nil => intro start x hx; simp [emitNonzero] at hx
  | cons c rest ih =>
    intro start x hx
    simp only [emitNonzero, List.mem_append] at hx
    rcases hx with hx | hx
    · by_cases hc : c ≠ 0
      · rw [if_pos hc] at hx
        simp only [List.mem_singleton] at hx
        subst hx
        exact le_refl start
      · rw [if_neg hc] at hx
        simp at hx
    · exact le_trans (Nat.le_succ start) (ih (start + 1) x hx)

/-- Every emitted feature has a nonzero counter value. -/
theorem emitNonzero_snd_ne (l : List Nat) :
    ∀ start, ∀ x ∈ emitNonzero start l, x.2 ≠ 0 := by
  induction l with
  | nil => intro start x hx; simp [emitNonzero] at hx
  | cons c rest ih =>
    intro start x hx
    simp only [emitNonzero, List.mem_append] at hx
    rcases hx with hx | hx
    · by_cases hc : c ≠ 0
      · rw [if_pos hc] at hx
        simp only [List.mem_singleton] at hx
        subst hx
        exact hc
      · rw [if_neg hc] at hx
        simp at hx
    · exact ih (start + 1) x hx

/-- The emitted feature indices are strictly ascending. -/
theorem emitNonzero_sorted (l : List Nat) :
    ∀ start, ((emitNonzero start l).map Prod.fst).Sorted (· < ·) := by
  induction l with
  | nil => intro start; simp [emitNonzero]
  | cons c rest ih =>
    intro start
    simp only [emitNonzero, List.map_append]
    by_cases hc : c ≠ 0
    · rw [if_pos hc]
      simp only [List.map_cons, List.map_nil, List.singleton_append]
      rw [List.sorted_cons]
      refine ⟨?_, ih (start + 1)⟩
      intro b hb
      obtain ⟨x, hx, rfl⟩ := List.mem_map.1 hb
      exact lt_of_lt_of_le (Nat.lt_succ_self start) (emitNonzero_fst_ge rest (start + 1) x hx)
    · rw [if_neg hc]
      simp only [List.map_nil, List.nil_append]
      exact ih (start + 1)

/-- C7: for every in-bounds function index `i`,
`iterate_over_collected_features` emits, in strictly ascending index order
starting at the start of `index_ranges[i]`, one feature per nonzero counter of
the sequence single counters ++ expression counters; and when the first single
counter is zero it emits nothing at all for that function, returning early. -/
theorem c7_sensor_feature_iteration (cs : List Coverage) (i : Nat)
    (cov : Coverage) (r : Nat × Nat)
    (hcov : cs.get? i = some cov) (hr : (indexRanges cs).get? i = some r)
    (c0 : Nat) (rest : List Nat) (hsc : cov.single_counters = c0 :: rest) :
    (c0 = 0 → sensorIterate cs i = some []) ∧
    (c0 ≠ 0 →
      sensorIterate cs i =
        some (emitNonzero r.1 (cov.single_counters ++ cov.expression_counters)) ∧
      ((emitNonzero r.1 (cov.single_counters ++ cov.expression_counters)).map
        Prod.fst).Sorted (· < ·) ∧
      (∀ x ∈ emitNonzero r.1 (cov.single_counters ++ cov.expression_counters),
        r.1 ≤ x.1 ∧ x.2 ≠ 0)) := by
  constructor
  · intro h0
    simp only [sensorIterate, hcov, hr, iterateOverCollectedFeatures, hsc, if_pos h0]
  · intro h0
    refine ⟨?_, emitNonzero_sorted _ r.1,
      fun x hx => ⟨emitNonzero_fst_ge _ r.1 x hx, emitNonzero_snd_ne _ r.1 x hx⟩⟩
    simp only [sensorIterate, hcov, hr, iterateOverCollectedFeatures, hsc, if_neg h0]
    rw [List.cons_append, emitNonzero_cons, if_pos h0, emitNonzero_append,
      List.singleton_append]

/-- Witness for C7: a two-function sensor; the second function has single
counters `[2, 0, 3]` and expression counters `[0, 4]`, its index range starts
at 1, and the emitted features are exactly the nonzero counters at ascending
indices. -/
theorem c7_sensor_feature_iteration_witness :
    sensorIterate [⟨[1], []⟩, ⟨[2, 0, 3], [0, 4]⟩] 1 =
      some [(1, 2), (3, 3), (5, 4)] := by
  have h := (c7_sensor_feature_iteration [⟨[1], []⟩, ⟨[2, 0, 3], [0, 4]⟩] 1
    ⟨[2, 0, 3], [0, 4]⟩ (1, 5) rfl rfl 2 [0, 3] rfl).2 (by decide)
  rw [h.1]
  rfl

/-! ### Theorems about HBitSet: the state built by set -/

/-- Dividing by 64 and then by `64 ^ d` is dividing by `64 ^ (d + 1)`. -/
theorem div64_div_pow (i d : Nat) : i / 64 / 64 ^ d = i / 64 ^ (d + 1) := by
  rw [Nat.div_div_eq_div_mul, pow_succ']

/-- Dividing by `64 ^ d` and then by 64 is dividing by `64 ^ (d + 1)`. -/
theorem div_pow_div64 (i d : Nat) : i / 64 ^ d / 64 = i / 64 ^ (d + 1) := by
  rw [Nat.div_div_eq_div_mul, pow_succ]

/-- testBit of an or with a single shifted-in bit. -/
theorem testBit_or_shift (w m b : Nat) :
    ((w ||| (1 <<< m)).testBit b = true) ↔ (w.testBit b = true ∨ m = b) := by
  rw [Nat.testBit_or, Nat.shiftLeft_eq, one_mul, Bool.or_eq_true]
  constructor
  · rintro (h | h)
    · exact Or.inl h
    · by_cases hmb : m = b
      · exact Or.inr hmb
      · rw [Nat.testBit_two_pow_of_ne hmb] at h
        exact absurd h (by simp)
  · rintro (h | h)
    · exact Or.inl h
    · subst h
      exact Or.inr Nat.testBit_two_pow_self

/-- A nonzero word has a set bit. -/
theorem exists_testBit_of_ne_zero (w : Nat) (hw : w ≠ 0) :
    ∃ b, w.testBit b = true := by
  by_contra h
  push_neg at h
  simp only [Bool.not_eq_true] at h
  exact hw (Nat.eq_of_testBit_eq (fun i => by rw [h i, Nat.zero_testBit]))

/-- A nonzero `u64` word has a set bit below 64. -/
theorem exists_testBit_lt_64 (w : Nat) (hw : w ≠ 0) (hb : w < 2 ^ 64) :
    ∃ b, b < 64 ∧ w.testBit b = true := by
  obtain ⟨b, h⟩ := exists_testBit_of_ne_zero w hw
  refine ⟨b, ?_, h⟩
  by_contra hge
  push_neg at hge
  have hlt : w < 2 ^ b := lt_of_lt_of_le hb (Nat.pow_le_pow_right (by norm_num) hge)
  rw [Nat.testBit_lt_two_pow hlt] at h
  exact absurd h (by simp)

/-- A set bit means the word is nonzero. -/
theorem ne_zero_of_testBit (w b : Nat) (h : w.testBit b = true) : w ≠ 0 := by
  intro h0
  rw [h0, Nat.zero_testBit] at h
  exact absurd h (by simp)

/-- Effect of one `|=` store on an arbitrary bit of an arbitrary word. -/
theorem hbSetBit_testBit (s : HBState) (k a b k2 a2 b2 : Nat) :
    (((hbSetBit s k a b) k2 a2).testBit b2 = true) ↔
      ((s k2 a2).testBit b2 = true ∨ (k = k2 ∧ a = a2 ∧ b = b2)) := by
  show ((if k2 = k ∧ a2 = a then s k a ||| (1 <<< b) else s k2 a2).testBit b2 = true) ↔ _
  by_cases h : k2 = k ∧ a2 = a
  · obtain ⟨h1, h2⟩ := h
    subst h1
    subst h2
    rw [if_pos ⟨rfl, rfl⟩, testBit_or_shift]
    tauto
  · rw [if_neg h]
    constructor
    · exact Or.inl
    · rintro (hx | ⟨h1, h2, h3⟩)
      · exact hx
      · exact absurd ⟨h1.symm, h2.symm⟩ h

/-- Effect of `HBitSet::set(i)` on an arbitrary bit of an arbitrary word of
the four levels. -/
theorem hbSet_testBit (s : HBState) (i k a b : Nat) (hk : k ≤ 3) :
    (((hbSet s i) k a).testBit b = true) ↔
      ((s k a).testBit b = true ∨ (i / 64 ^ (k + 1) = a ∧ (i / 64 ^ k) % 64 = b)) := by
  unfold hbSet
  rw [hbSetBit_testBit, hbSetBit_testBit, hbSetBit_testBit, hbSetBit_testBit]
  have e1 : (64:Nat) ^ 1 = 64 := pow_one 64
  have e2 : (64:Nat) ^ 2 = 64 * 64 := by ring
  have e3 : (64:Nat) ^ 3 = 64 * 64 * 64 := by ring
  have e4 : (64:Nat) ^ 4 = 64 * 64 * 64 * 64 := by ring
  interval_cases k <;>
    simp only [pow_zero, Nat.div_one, e1, e2, e3, e4, Nat.div_div_eq_div_mul] <;>
    norm_num

/-- Bits of the state built by folding `set` over a list of indices: a bit is
set exactly when some inserted index projects to that word and bit. -/
theorem foldSet_testBit (L : List Nat) (k a b : Nat) (hk : k ≤ 3) :
    (((L.foldl hbSet hbEmpty) k a).testBit b = true) ↔
      (∃ i ∈ L, i / 64 ^ (k + 1) = a ∧ (i / 64 ^ k) % 64 = b) := by
  suffices h : ∀ s : HBState, (((L.foldl hbSet s) k a).testBit b = true) ↔
      ((s k a).testBit b = true ∨ ∃ i ∈ L, i / 64 ^ (k + 1) = a ∧ (i / 64 ^ k) % 64 = b) by
    rw [h hbEmpty]
    simp [hbEmpty, Nat.zero_testBit]
  induction L with
  | nil => intro s; simp
  | cons x rest ih =>
    intro s
    rw [List.foldl_cons, ih (hbSet s x), hbSet_testBit s x k a b hk]
    simp only [List.mem_cons]
    constructor
    · rintro ((h | h) | ⟨i, hi, h⟩)
      · exact Or.inl h
      · exact Or.inr ⟨x, Or.inl rfl, h⟩
      · exact Or.inr ⟨i, Or.inr hi, h⟩
    · rintro (h | ⟨i, hi | hi, h⟩)
      · exact Or.inl (Or.inl h)
      · subst hi; exact Or.inl (Or.inr h)
      · exact Or.inr ⟨i, hi, h⟩

/-- The state built by `set` has `u64` words. -/
theorem foldSet_bounded (L : List Nat) : WordsBounded (L.foldl hbSet hbEmpty) := by
  suffices h : ∀ s : HBState, WordsBounded s → WordsBounded (L.foldl hbSet s) by
    exact h hbEmpty (fun k a => by simp [hbEmpty])
  induction L with
  | nil => intro s hs; exact hs
  | cons x rest ih =>
    intro s hs
    rw [List.foldl_cons]
    refine ih (hbSet s x) ?_
    have hone : ∀ s2 : HBState, WordsBounded s2 → ∀ k a b, b < 64 →
        WordsBounded (hbSetBit s2 k a b) := by
      intro s2 hs2 k a b hb k2 a2
      show (if k2 = k ∧ a2 = a then s2 k a ||| (1 <<< b) else s2 k2 a2) < 2 ^ 64
      split_ifs with h
      · rw [Nat.shiftLeft_eq, one_mul]
        exact Nat.or_lt_two_pow (hs2 k a)
          (Nat.pow_lt_pow_right (by norm_num) hb)
      · exact hs2 k2 a2
    unfold hbSet
    refine hone _ (hone _ (hone _ (hone _ hs 0 _ _ (Nat.mod_lt _ (by norm_num)))
      1 _ _ (Nat.mod_lt _ (by norm_num))) 2 _ _ (Nat.mod_lt _ (by norm_num)))
      3 _ _ (Nat.mod_lt _ (by norm_num))

/-- The state built by `set` is covered: a nonzero word has its parent bit
set. -/
theorem foldSet_covered (L : List Nat) : Covered (L.foldl hbSet hbEmpty) := by
  intro k hk c hc
  obtain ⟨b, hb64, hb⟩ := exists_testBit_lt_64 _ hc (foldSet_bounded L k c)
  obtain ⟨i, hiL, hia, _⟩ := (foldSet_testBit L k c b (by omega)).1 hb
  rw [foldSet_testBit L (k + 1) (c / 64) (c % 64) (by omega)]
  refine ⟨i, hiL, ?_, ?_⟩
  · rw [← div64_div_pow, Nat.div_div_eq_div_mul, Nat.mul_comm,
      ← Nat.div_div_eq_div_mul, hia]
  · rw [hia]

/-- Membership in the state built by `set`: an index is live exactly when it
was inserted. -/
theorem foldSet_live (L : List Nat) (i : Nat) :
    hbLive (L.foldl hbSet hbEmpty) i = true ↔ i ∈ L := by
  unfold hbLive
  rw [foldSet_testBit L 0 (i / 64) (i % 64) (by omega)]
  constructor
  · rintro ⟨x, hx, h1, h2⟩
    rw [pow_one] at h1
    rw [pow_zero, Nat.div_one] at h2
    have : x = i := by omega
    rwa [← this]
  · intro h
    exact ⟨i, h, by rw [pow_one], by rw [pow_zero, Nat.div_one]⟩

/-- Levels above 3 are never written by `set`. -/
theorem foldSet_high (L : List Nat) (k a : Nat) (hk : 3 < k) :
    (L.foldl hbSet hbEmpty) k a = 0 := by
  suffices h : ∀ s : HBState, s k a = 0 → (L.foldl hbSet s) k a = 0 by
    exact h hbEmpty rfl
  induction L with
  | nil => intro s hs; exact hs
  | cons x rest ih =>
    intro s hs
    rw [List.foldl_cons]
    refine ih (hbSet s x) ?_
    show (hbSet s x) k a = 0
    unfold hbSet hbSetBit updW
    rw [if_neg (by omega), if_neg (by omega), if_neg (by omega), if_neg (by omega)]
    exact hs

/-- Words beyond the vector size of their level are never written by `set`
when all inserted indices are below 2^30. -/
theorem foldSet_oob (L : List Nat) (hL : ∀ i ∈ L, i < 2 ^ 30) (k a : Nat)
    (hk : k ≤ 3) (ha : 64 ^ (4 - k) ≤ a) : (L.foldl hbSet hbEmpty) k a = 0 := by
  by_contra hne
  obtain ⟨b, hb64, hb⟩ := exists_testBit_lt_64 _ hne (foldSet_bounded L k a)
  obtain ⟨i, hiL, hia, _⟩ := (foldSet_testBit L k a b hk).1 hb
  have hi30 := hL i hiL
  have hlt : i / 64 ^ (k + 1) < 64 ^ (4 - k) := by
    rw [Nat.div_lt_iff_lt_mul (Nat.pos_pow_of_pos _ (by norm_num))]
    calc i < 2 ^ 30 := hi30
    _ ≤ 64 ^ (4 - k) * 64 ^ (k + 1) := by
      rw [← pow_add]
      have : 4 - k + (k + 1) = 5 := by omega
      rw [this]
      norm_num
  omega

/-! ### Theorems about HBitSet: interval and region tools -/

/-- Splitting the present-element list of an interval. -/
theorem liveElems_append (s : HBState) (lo m n : Nat) :
    liveElems s lo (m + n) = liveElems s lo m ++ liveElems s (lo + m) n := by
  unfold liveElems
  rw [List.range_add, List.map_append, List.filter_append, List.map_map]
  have hf : ((fun j : Nat => lo + j) ∘ fun x : Nat => m + x) =
      fun j : Nat => lo + m + j := by
    funext j
    show lo + (m + j) = lo + m + j
    omega
  rw [hf]

/-- The present-element list only reads the `l0` words of the interval. -/
theorem liveElems_congr (s s2 : HBState) (lo len : Nat)
    (h : ∀ i, lo ≤ i → i < lo + len → s2 0 (i / 64) = s 0 (i / 64)) :
    liveElems s2 lo len = liveElems s lo len := by
  unfold liveElems
  refine List.filter_congr ?_
  intro i hi
  obtain ⟨j, hj, rfl⟩ := List.mem_map.1 hi
  have hjlt := List.mem_range.1 hj
  unfold hbLive
  rw [h (lo + j) (by omega) (by omega)]

/-- An interval whose `l0` words are all zero has no present elements. -/
theorem liveElems_nil (s : HBState) (lo len : Nat)
    (h : ∀ i, lo ≤ i → i < lo + len → s 0 (i / 64) = 0) :
    liveElems s lo len = [] := by
  unfold liveElems
  rw [List.filter_eq_nil_iff]
  intro i hi
  obtain ⟨j, hj, rfl⟩ := List.mem_map.1 hi
  have hjlt := List.mem_range.1 hj
  unfold hbLive
  rw [h (lo + j) (by omega) (by omega), Nat.zero_testBit]
  simp

/-- The present-element list of `[0, n)` is the filtered range. -/
theorem liveElems_zero_start (s : HBState) (n : Nat) :
    liveElems s 0 n = (List.range n).filter (hbLive s) := by
  unfold liveElems
  have h : (fun j : Nat => 0 + j) = id := funext fun j => by show 0 + j = j; omega
  rw [h, List.map_id]

/-- The emission of one `l0` word is exactly the present-element list of its
64-element interval. -/
theorem emitWord_eq_liveElems (s : HBState) (a : Nat) :
    emitWord a (s 0 a) = liveElems s (a * 64) 64 := by
  unfold emitWord liveElems
  rw [List.filter_map]
  congr 1
  refine List.filter_congr ?_
  intro b hb
  have hb64 := List.mem_range.1 hb
  show (s 0 a).testBit b = hbLive s (a * 64 + b)
  unfold hbLive
  rw [show (a * 64 + b) / 64 = a from by omega, show (a * 64 + b) % 64 = b from by omega]

/-- Chaining two zero-diff steps. -/
theorem zeroDiff_trans (s s1 s2 : HBState) (P Q : Nat → Nat → Prop)
    (h1 : ZeroDiff s s1 P) (h2 : ZeroDiff s1 s2 Q) :
    ZeroDiff s s2 (fun j c => P j c ∨ Q j c) := by
  obtain ⟨z1, u1⟩ := h1
  obtain ⟨z2, u2⟩ := h2
  constructor
  · rintro j c (h | h)
    · by_cases hq : Q j c
      · exact z2 j c hq
      · rw [u2 j c hq]
        exact z1 j c h
    · exact z2 j c h
  · intro j c h
    rw [u2 j c (fun hq => h (Or.inr hq)), u1 j c (fun hp => h (Or.inl hp))]

/-- Regions can be replaced by equivalent ones. -/
theorem zeroDiff_congr (s s2 : HBState) (P Q : Nat → Nat → Prop)
    (h : ZeroDiff s s2 P) (hq : ∀ j c, Q j c ↔ P j c) : ZeroDiff s s2 Q :=
  ⟨fun j c hj => h.1 j c ((hq j c).1 hj),
    fun j c hj => h.2 j c (fun hp => hj ((hq j c).2 hp))⟩

/-- A zero-diff step over a child-closed region preserves coverage. -/
theorem covered_preserve (s s2 : HBState) (P : Nat → Nat → Prop)
    (hc : Covered s) (hz : ZeroDiff s s2 P)
    (hdown : ∀ j c, P (j + 1) (c / 64) → P j c) : Covered s2 := by
  intro k hk c hne
  by_cases hp : P k c
  · exact absurd (hz.1 k c hp) hne
  · rw [hz.2 k c hp] at hne
    by_cases hp2 : P (k + 1) (c / 64)
    · exact absurd (hdown k c hp2) hp
    · rw [hz.2 (k + 1) (c / 64) hp2]
      exact hc k hk c hne

/-- A zero-diff step preserves the word bound. -/
theorem bounded_preserve (s s2 : HBState) (P : Nat → Nat → Prop)
    (hb : WordsBounded s) (hz : ZeroDiff s s2 P) : WordsBounded s2 := by
  intro k a
  by_cases hp : P k a
  · rw [hz.1 k a hp]
    exact Nat.pos_pow_of_pos _ (by norm_num)
  · rw [hz.2 k a hp]
    exact hb k a

/-- Going up `d` levels from a nonzero word keeps words nonzero in a covered
state. -/
theorem covered_up (s : HBState) (hc : Covered s) (d : Nat) :
    ∀ j c, j + d ≤ 3 → s j c ≠ 0 → s (j + d) (c / 64 ^ d) ≠ 0 := by
  induction d with
  | zero => intro j c _ h; simpa using h
  | succ d ih =>
    intro j c hjd h
    have h1 := ih j c (by omega) h
    have h2 := hc (j + d) (by omega) (c / 64 ^ d) h1
    have h3 : s (j + d + 1) (c / 64 ^ d / 64) ≠ 0 := ne_zero_of_testBit _ _ h2
    rw [Nat.div_div_eq_div_mul, ← pow_succ] at h3
    have he : j + d + 1 = j + (d + 1) := by omega
    rwa [he] at h3

/-- In a covered state, a zero ancestor word means the whole subtree is
zero. -/
theorem covered_zero_down (s : HBState) (hc : Covered s) (d j c : Nat)
    (hjd : j + d ≤ 3) (h : s (j + d) (c / 64 ^ d) = 0) : s j c = 0 := by
  by_contra hne
  exact absurd h (covered_up s hc d j c hjd hne)

/-- The empty window region. -/
theorem inWin_zero_len (k a j c : Nat) : ¬ InWin k a 0 j c := by
  rintro ⟨h1, h2, h3⟩
  omega

/-- The window regions are closed under passing from a word to its
children. -/
theorem inWin_down (k a len j c : Nat) (h : InWin k a len (j + 1) (c / 64)) :
    InWin k a len j c := by
  obtain ⟨h1, h2, h3⟩ := h
  rw [div64_div_pow, show k - (j + 1) + 1 = k - j from by omega] at h2 h3
  exact ⟨by omega, h2, h3⟩

/-- A window of `len + 1` words is its first word plus the remaining
window. -/
theorem inWin_split (k a len j c : Nat) :
    InWin k a (len + 1) j c ↔ (InWin k a 1 j c ∨ InWin k (a + 1) len j c) := by
  unfold InWin
  constructor
  · rintro ⟨h1, h2, h3⟩
    by_cases h : c / 64 ^ (k - j) = a
    · exact Or.inl ⟨h1, by omega, by omega⟩
    · exact Or.inr ⟨h1, by omega, by omega⟩
  · rintro (⟨h1, h2, h3⟩ | ⟨h1, h2, h3⟩) <;> exact ⟨h1, by omega, by omega⟩

/-- A window contained in a wider window. -/
theorem inWin_sub (k a len a2 len2 j c : Nat) (ha : a ≤ a2)
    (hlen : a2 + len2 ≤ a + len) (h : InWin k a2 len2 j c) :
    InWin k a len j c := by
  obtain ⟨h1, h2, h3⟩ := h
  exact ⟨h1, by omega, by omega⟩

/-- The subtree of one level-`(k+1)` word: the word itself plus the window of
its 64 children. -/
theorem inWin_top_succ (k a j c : Nat) :
    InWin (k + 1) a 1 j c ↔ ((j = k + 1 ∧ c = a) ∨ InWin k (a * 64) 64 j c) := by
  unfold InWin
  constructor
  · rintro ⟨h1, h2, h3⟩
    by_cases hj : j = k + 1
    · subst hj
      rw [Nat.sub_self, pow_zero, Nat.div_one] at h2 h3
      exact Or.inl ⟨rfl, by omega⟩
    · have hjk : j ≤ k := by omega
      rw [show k + 1 - j = (k - j) + 1 from by omega, ← div_pow_div64] at h2 h3
      exact Or.inr ⟨hjk, by omega, by omega⟩
  · rintro (⟨hj, hca⟩ | ⟨h1, h2, h3⟩)
    · subst hj
      subst hca
      rw [Nat.sub_self, pow_zero, Nat.div_one]
      exact ⟨le_refl _, le_refl _, by omega⟩
    · have hjk : j ≤ k := h1
      rw [show k + 1 - j = (k - j) + 1 from by omega, ← div_pow_div64]
      exact ⟨by omega, by omega, by omega⟩

/-- The `l0` word of an element of the interval of a level-`k` window lies in
the window. -/
theorem l0_word_in_interval (A n i k : Nat)
    (h1 : A * 64 ^ (k + 1) ≤ i) (h2 : i < (A + n) * 64 ^ (k + 1)) :
    A ≤ i / 64 / 64 ^ k ∧ i / 64 / 64 ^ k < A + n := by
  rw [div64_div_pow]
  have hpos : 0 < (64:Nat) ^ (k + 1) := Nat.pos_pow_of_pos _ (by norm_num)
  constructor
  · rw [Nat.le_div_iff_mul_le hpos]
    exact h1
  · rw [Nat.div_lt_iff_lt_mul hpos]
    exact h2

/-! ### Theorems about HBitSet: the drain loops -/

/-- A window of word drains emits the present elements of the words' element
intervals, in order, and zeroes exactly the union of the words' subtrees. -/
theorem winFold_spec (k : Nat) (g : HBState → Nat → HBState × List Nat)
    (hg : WordDrainSpec k g) :
    ∀ len a s, Covered s → WordsBounded s →
      (winFold g s a len).2 = liveElems s (a * 64 ^ (k + 1)) (len * 64 ^ (k + 1)) ∧
      ZeroDiff s (winFold g s a len).1 (InWin k a len) := by
  intro len
  induction len with
  | zero =>
    intro a s hc hb
    constructor
    · show ([] : List Nat) = liveElems s (a * 64 ^ (k + 1)) (0 * 64 ^ (k + 1))
      rw [Nat.zero_mul]
      unfold liveElems
      simp
    · exact ⟨fun j c hj => absurd hj (inWin_zero_len k a j c), fun j c _ => rfl⟩
  | succ len ih =>
    intro a s hc hb
    obtain ⟨hout1, hzd1⟩ := hg s a hc hb
    have hc1 : Covered (g s a).1 :=
      covered_preserve s _ _ hc hzd1 (fun j c => inWin_down k a 1 j c)
    have hb1 : WordsBounded (g s a).1 := bounded_preserve s _ _ hb hzd1
    obtain ⟨hout2, hzd2⟩ := ih (a + 1) (g s a).1 hc1 hb1
    have hnext : (a + 1) * 64 ^ (k + 1) = a * 64 ^ (k + 1) + 64 ^ (k + 1) := by ring
    constructor
    · show (g s a).2 ++ (winFold g (g s a).1 (a + 1) len).2 = _
      rw [hout1, hout2, show (len + 1) * 64 ^ (k + 1) =
        64 ^ (k + 1) + len * 64 ^ (k + 1) from by ring, liveElems_append]
      congr 1
      rw [← hnext]
      refine liveElems_congr _ _ _ _ ?_
      intro i h1 h2
      refine hzd1.2 0 (i / 64) ?_
      rintro ⟨_, hw1, hw2⟩
      rw [Nat.sub_zero] at hw1 hw2
      obtain ⟨hA, _⟩ := l0_word_in_interval (a + 1) len i k h1 (by
        rw [hnext] at h2
        calc i < a * 64 ^ (k + 1) + 64 ^ (k + 1) + len * 64 ^ (k + 1) := h2
        _ = (a + 1 + len) * 64 ^ (k + 1) := by ring)
      omega
    · show ZeroDiff s (winFold g (g s a).1 (a + 1) len).1 _
      refine zeroDiff_congr _ _ _ _ (zeroDiff_trans _ _ _ _ _ hzd1 hzd2) ?_
      intro j c
      exact inWin_split k a len j c

/-- The bit loop over a level-`(k+1)` word: starting at bit `64 - r`, it
emits the present elements of the element intervals of the children windows
of the remaining set bits — which together cover exactly the interval of
children `64 - r` onward — and zeroes exactly those children's subtrees. -/
theorem bitsFold_spec (k : Nat) (hk3 : k + 1 ≤ 3)
    (g : HBState → Nat → Nat → HBState × List Nat) (hg : WinDrainSpec k g) :
    ∀ r, r ≤ 64 → ∀ a s, Covered s → WordsBounded s →
      (bitsFold g (k + 1) a s r).2 =
        liveElems s ((a * 64 + (64 - r)) * 64 ^ (k + 1)) (r * 64 ^ (k + 1)) ∧
      ZeroDiff s (bitsFold g (k + 1) a s r).1 (InWin k (a * 64 + (64 - r)) r) := by
  intro r
  induction r with
  | zero =>
    intro _ a s hc hb
    constructor
    · show ([] : List Nat) = _
      rw [Nat.zero_mul]
      unfold liveElems
      simp
    · exact ⟨fun j c hj => absurd hj (inWin_zero_len _ _ j c), fun j c _ => rfl⟩
  | succ r ih =>
    intro hr a s hc hb
    have hb63 : 64 - (r + 1) < 64 := by omega
    have h64b : 64 - (64 - (r + 1)) = r + 1 := by omega
    have hsucc : a * 64 + (64 - (r + 1)) + 1 = a * 64 + (64 - r) := by omega
    by_cases htb : (s (k + 1) a).testBit (64 - (r + 1)) = true
    · have e : bitsFold g (k + 1) a s (r + 1) =
          ((bitsFold g (k + 1) a (g s (a * 64 + (64 - (r + 1))) (64 - (64 - (r + 1)))).1 r).1,
            (g s (a * 64 + (64 - (r + 1))) (64 - (64 - (r + 1)))).2 ++
            (bitsFold g (k + 1) a (g s (a * 64 + (64 - (r + 1))) (64 - (64 - (r + 1)))).1 r).2) := by
        simp only [bitsFold, htb, if_true]
      rw [h64b] at e
      obtain ⟨hout1, hzd1⟩ := hg s (a * 64 + (64 - (r + 1))) (r + 1) hc hb
      have hc1 : Covered (g s (a * 64 + (64 - (r + 1))) (r + 1)).1 :=
        covered_preserve s _ _ hc hzd1
          (fun j c => inWin_down k (a * 64 + (64 - (r + 1))) (r + 1) j c)
      have hb1 : WordsBounded (g s (a * 64 + (64 - (r + 1))) (r + 1)).1 :=
        bounded_preserve s _ _ hb hzd1
      obtain ⟨hout2, hzd2⟩ := ih (by omega) a _ hc1 hb1
      simp only [e]
      constructor
      · show (g s (a * 64 + (64 - (r + 1))) (r + 1)).2 ++ _ = _
        rw [hout1, hout2]
        have hnil : liveElems (g s (a * 64 + (64 - (r + 1))) (r + 1)).1
            ((a * 64 + (64 - r)) * 64 ^ (k + 1)) (r * 64 ^ (k + 1)) = [] := by
          refine liveElems_nil _ _ _ ?_
          intro i h1 h2
          refine hzd1.1 0 (i / 64) ?_
          refine ⟨Nat.zero_le k, ?_, ?_⟩ <;>
          · rw [Nat.sub_zero]
            obtain ⟨hA, hB⟩ := l0_word_in_interval (a * 64 + (64 - r)) r i k h1 (by
              calc i < (a * 64 + (64 - r)) * 64 ^ (k + 1) + r * 64 ^ (k + 1) := h2
              _ = (a * 64 + (64 - r) + r) * 64 ^ (k + 1) := by ring)
            omega
        rw [hnil, List.append_nil]
      · refine zeroDiff_congr _ _ _ _
          (zeroDiff_trans _ _ _ _ _ hzd1 (by rw [← hsucc] at hzd2; exact hzd2)) ?_
        intro j c
        constructor
        · intro h
          exact Or.inl h
        · rintro (h | h)
          · exact h
          · exact inWin_sub k (a * 64 + (64 - (r + 1))) (r + 1) _ _ j c
              (by omega) (by omega) h
    · have e : bitsFold g (k + 1) a s (r + 1) = bitsFold g (k + 1) a s r := by
        simp only [bitsFold, htb, Bool.false_eq_true, if_false]
      have hchild : s k (a * 64 + (64 - (r + 1))) = 0 := by
        by_contra hne
        have := hc k (by omega) (a * 64 + (64 - (r + 1))) hne
        rw [show (a * 64 + (64 - (r + 1))) / 64 = a from by omega,
          show (a * 64 + (64 - (r + 1))) % 64 = 64 - (r + 1) from by omega] at this
        exact htb this
      have hsub : ∀ j c, j ≤ k → c / 64 ^ (k - j) = a * 64 + (64 - (r + 1)) →
          s j c = 0 := by
        intro j c hj hdiv
        refine covered_zero_down s hc (k - j) j c (by omega) ?_
        rw [show j + (k - j) = k from by omega, hdiv]
        exact hchild
      obtain ⟨hout2, hzd2⟩ := ih (by omega) a s hc hb
      simp only [e]
      constructor
      · rw [hout2, show (r + 1) * 64 ^ (k + 1) =
          64 ^ (k + 1) + r * 64 ^ (k + 1) from by ring, liveElems_append]
        have hnil : liveElems s ((a * 64 + (64 - (r + 1))) * 64 ^ (k + 1))
            (64 ^ (k + 1)) = [] := by
          refine liveElems_nil _ _ _ ?_
          intro i h1 h2
          refine hsub 0 (i / 64) (Nat.zero_le k) ?_
          rw [Nat.sub_zero]
          obtain ⟨hA, hB⟩ := l0_word_in_interval (a * 64 + (64 - (r + 1))) 1 i k h1 (by
            calc i < (a * 64 + (64 - (r + 1))) * 64 ^ (k + 1) + 64 ^ (k + 1) := h2
            _ = (a * 64 + (64 - (r + 1)) + 1) * 64 ^ (k + 1) := by ring)
          omega
        rw [hnil, List.nil_append]
        congr 1
        rw [← hsucc]
        ring
      · constructor
        · intro j c hj
          rw [inWin_split] at hj
          rcases hj with hj | hj
          · obtain ⟨hj1, hj2, hj3⟩ := hj
            rw [hzd2.2 j c (by
              rw [← hsucc]
              rintro ⟨_, hw1, hw2⟩
              omega)]
            exact hsub j c hj1 (by omega)
          · rw [← hsucc] at hzd2
            exact hzd2.1 j c hj
        · intro j c hj
          rw [← hsucc] at hzd2
          refine hzd2.2 j c ?_
          intro hq
          exact hj (inWin_sub k (a * 64 + (64 - (r + 1))) (r + 1) _ _ j c
            (by omega) (by omega) hq)

/-- The word drain meets its specification at every level up to 3. -/
theorem drainWord_spec : ∀ k, k ≤ 3 → WordDrainSpec k (fun s a => drainWord k s a) := by
  intro k
  induction k with
  | zero =>
    intro _ s a hc hb
    by_cases h0 : s 0 a = 0
    · have e : drainWord 0 s a = (s, []) := by simp [drainWord, h0]
      simp only [e]
      constructor
      · show ([] : List Nat) = liveElems s (a * 64 ^ (0 + 1)) (64 ^ (0 + 1))
        symm
        refine liveElems_nil _ _ _ ?_
        intro i h1 h2
        rw [pow_one] at h1 h2
        rw [show i / 64 = a from by omega]
        exact h0
      · constructor
        · rintro j c ⟨hj, h2, h3⟩
          have hj0 : j = 0 := by omega
          subst hj0
          rw [Nat.sub_zero, pow_zero, Nat.div_one] at h2 h3
          show s 0 c = 0
          rw [show c = a from by omega]
          exact h0
        · intro j c _
          rfl
    · have e : drainWord 0 s a = (updW s 0 a 0, emitWord a (s 0 a)) := by
        simp [drainWord, h0]
      simp only [e]
      constructor
      · exact emitWord_eq_liveElems s a
      · constructor
        · rintro j c ⟨hj, h2, h3⟩
          have hj0 : j = 0 := by omega
          subst hj0
          rw [Nat.sub_zero, pow_zero, Nat.div_one] at h2 h3
          show updW s 0 a 0 0 c = 0
          unfold updW
          rw [if_pos ⟨rfl, by omega⟩]
        · intro j c hn
          show updW s 0 a 0 j c = s j c
          unfold updW
          refine if_neg ?_
          rintro ⟨hj, hcv⟩
          subst hj
          subst hcv
          refine hn ⟨Nat.le_refl 0, ?_, ?_⟩ <;>
            rw [Nat.sub_zero, pow_zero, Nat.div_one] <;> omega
  | succ k ih =>
    intro hk s a hc hb
    by_cases h0 : s (k + 1) a = 0
    · have e : drainWord (k + 1) s a = (s, []) := by simp [drainWord, h0]
      simp only [e]
      have hzero : ∀ j c, j ≤ k + 1 → c / 64 ^ (k + 1 - j) = a → s j c = 0 := by
        intro j c hj hdiv
        refine covered_zero_down s hc (k + 1 - j) j c (by omega) ?_
        rw [show j + (k + 1 - j) = k + 1 from by omega, hdiv]
        exact h0
      constructor
      · show ([] : List Nat) = _
        symm
        refine liveElems_nil _ _ _ ?_
        intro i h1 h2
        refine hzero 0 (i / 64) (by omega) ?_
        rw [Nat.sub_zero]
        obtain ⟨hA, hB⟩ := l0_word_in_interval a 1 i (k + 1) h1 (by
          calc i < a * 64 ^ (k + 1 + 1) + 64 ^ (k + 1 + 1) := h2
          _ = (a + 1) * 64 ^ (k + 1 + 1) := by ring)
        omega
      · constructor
        · intro j c hj
          rw [inWin_top_succ] at hj
          rcases hj with ⟨rfl, rfl⟩ | hj
          · exact h0
          · obtain ⟨hj1, hj2, hj3⟩ := hj
            refine hzero j c (by omega) ?_
            rw [show k + 1 - j = (k - j) + 1 from by omega, ← div_pow_div64]
            omega
        · intro j c _
          rfl
    · have hwg : WinDrainSpec k
          (fun s2 c len => winFold (fun s3 c2 => drainWord k s3 c2) s2 c len) := by
        intro s2 a2 len2 hc2 hb2
        exact winFold_spec k _ (ih (by omega)) len2 a2 s2 hc2 hb2
      obtain ⟨hout, hzd⟩ := bitsFold_spec k hk _ hwg 64 (le_refl 64) a s hc hb
      simp only [Nat.sub_self, Nat.add_zero] at hout hzd
      have e : drainWord (k + 1) s a =
          (updW (bitsFold
              (fun s2 c len => winFold (fun s3 c2 => drainWord k s3 c2) s2 c len)
              (k + 1) a s 64).1 (k + 1) a 0,
            (bitsFold
              (fun s2 c len => winFold (fun s3 c2 => drainWord k s3 c2) s2 c len)
              (k + 1) a s 64).2) := by
        simp [drainWord, h0]
      simp only [e]
      constructor
      · show (bitsFold _ (k + 1) a s 64).2 = _
        rw [hout, show a * 64 * 64 ^ (k + 1) = a * 64 ^ (k + 1 + 1) from by ring,
          show 64 * 64 ^ (k + 1) = 64 ^ (k + 1 + 1) from by ring]
      · constructor
        · intro j c hj
          rw [inWin_top_succ] at hj
          show updW _ (k + 1) a 0 j c = 0
          unfold updW
          rcases hj with ⟨rfl, rfl⟩ | hj
          · rw [if_pos ⟨rfl, rfl⟩]
          · have hj1 : j ≤ k := hj.1
            rw [if_neg (by rintro ⟨h1, _⟩; omega)]
            exact hzd.1 j c hj
        · intro j c hj
          rw [inWin_top_succ] at hj
          show updW _ (k + 1) a 0 j c = s j c
          unfold updW
          rw [if_neg (by rintro ⟨h1, h2⟩; exact hj (Or.inl ⟨h1, h2⟩))]
          exact hzd.2 j c (fun h => hj (Or.inr h))

set_option maxRecDepth 40000 in
/-- A drain of the all-zero set emits nothing and leaves the state
all-zero. -/
theorem drain_empty : drain hbEmpty = (hbEmpty, []) := rfl

/-- C4: for every list of inserted indices below 2^30, a single `drain` of
the resulting `HBitSet` emits exactly one call per distinct inserted index, in
strictly ascending order (the call list is the filtered range), and leaves all
four level arrays all-zero, so a second `drain` emits nothing. -/
theorem c4_hbitset_drain (L : List Nat) (hL : ∀ i ∈ L, i < 2 ^ 30) :
    (drain (L.foldl hbSet hbEmpty)).2 =
      (List.range (2 ^ 30)).filter (fun i => L.contains i) ∧
    (drain (L.foldl hbSet hbEmpty)).2.Sorted (· < ·) ∧
    (drain (L.foldl hbSet hbEmpty)).1 = hbEmpty ∧
    (drain (drain (L.foldl hbSet hbEmpty)).1).2 = [] := by
  have hc := foldSet_covered L
  have hb := foldSet_bounded L
  obtain ⟨hout, hzd⟩ := winFold_spec 3 _ (drainWord_spec 3 (le_refl 3)) 64 0
    (L.foldl hbSet hbEmpty) hc hb
  have hout2 : (drain (L.foldl hbSet hbEmpty)).2 =
      (List.range (2 ^ 30)).filter (fun i => L.contains i) := by
    show (winFold (fun s2 a => drainWord 3 s2 a) (L.foldl hbSet hbEmpty) 0 64).2 = _
    rw [hout, show (0:Nat) * 64 ^ (3 + 1) = 0 from by ring,
      show 64 * 64 ^ (3 + 1) = 2 ^ 30 from by norm_num, liveElems_zero_start]
    refine List.filter_congr ?_
    intro i _
    have h1 := foldSet_live L i
    cases hlive : hbLive (L.foldl hbSet hbEmpty) i <;>
      cases hcont : L.contains i <;> simp_all [List.elem_iff]
  have hstate : (drain (L.foldl hbSet hbEmpty)).1 = hbEmpty := by
    funext k a
    show (winFold (fun s2 a => drainWord 3 s2 a) (L.foldl hbSet hbEmpty) 0 64).1 k a = 0
    by_cases hp : InWin 3 0 64 k a
    · exact hzd.1 k a hp
    · rw [hzd.2 k a hp]
      by_cases hk : k ≤ 3
      · have ha : 64 ≤ a / 64 ^ (3 - k) := by
          by_contra hlt
          exact hp ⟨hk, Nat.zero_le _, by omega⟩
        refine foldSet_oob L hL k a hk ?_
        rw [Nat.le_div_iff_mul_le (Nat.pos_pow_of_pos _ (by norm_num))] at ha
        calc (64:Nat) ^ (4 - k) = 64 * 64 ^ (3 - k) := by
              rw [← pow_succ']
              congr 1
              omega
        _ ≤ a := ha
      · exact foldSet_high L k a (by omega)
  refine ⟨hout2, ?_, hstate, ?_⟩
  · rw [hout2]
    exact (List.pairwise_lt_range _).filter _
  · rw [hstate, drain_empty]

/-- Witness for C4: the theorem applied to the inserted indices
`[70, 5, 70]` (with a duplicate): the drain emits 5 then 70 exactly once each
and empties the set. -/
theorem c4_hbitset_drain_witness :
    (drain (([70, 5, 70] : List Nat).foldl hbSet hbEmpty)).2 =
      (List.range (2 ^ 30)).filter (fun i => ([70, 5, 70] : List Nat).contains i) ∧
    (drain (([70, 5, 70] : List Nat).foldl hbSet hbEmpty)).2.Sorted (· < ·) ∧
    (drain (([70, 5, 70] : List Nat).foldl hbSet hbEmpty)).1 = hbEmpty ∧
    (drain (drain (([70, 5, 70] : List Nat).foldl hbSet hbEmpty)).1).2 = [] :=
  c4_hbitset_drain [70, 5, 70] (by decide)

/-! ### Theorems about input minification -/

/-- The minimum fold of `min_by` lands on an element of the list whose
complexity is minimal. -/
theorem foldlMin_spec (rest : List (String × ℚ)) :
    ∀ a, (rest.foldl (fun acc y => if acc.2 > y.2 then y else acc) a) ∈ a :: rest ∧
      (rest.foldl (fun acc y => if acc.2 > y.2 then y else acc) a).2 ≤ a.2 ∧
      ∀ p ∈ rest, (rest.foldl (fun acc y => if acc.2 > y.2 then y else acc) a).2 ≤ p.2 := by
  induction rest with
  | nil =>
    intro a
    exact ⟨List.mem_singleton_self a, le_refl _, by simp⟩
  | cons y rest ih =>
    intro a
    rw [List.foldl_cons]
    by_cases h : a.2 > y.2
    · rw [if_pos h]
      obtain ⟨hmem, hle, hall⟩ := ih y
      refine ⟨List.mem_cons_of_mem a hmem, le_trans hle (le_of_lt h), ?_⟩
      intro p hp
      rcases List.mem_cons.1 hp with h1 | h1
      · rw [h1]; exact hle
      · exact hall p h1
    · rw [if_neg h]
      push_neg at h
      obtain ⟨hmem, hle, hall⟩ := ih a
      refine ⟨?_, hle, ?_⟩
      · rcases List.mem_cons.1 hmem with h1 | h1
        · rw [h1]; exact List.mem_cons_self a _
        · exact List.mem_cons_of_mem a (List.mem_cons_of_mem y h1)
      · intro p hp
        rcases List.mem_cons.1 hp with h1 | h1
        · rw [h1]; exact le_trans hle h
        · exact hall p h1

/-- Specification of `min_by`: a returned element belongs to the list and has
minimal complexity. -/
theorem minByCplx_spec (l : List (String × ℚ)) (x : String × ℚ)
    (h : minByCplx l = some x) : x ∈ l ∧ ∀ p ∈ l, x.2 ≤ p.2 := by
  cases l with
  | nil => simp [minByCplx] at h
  | cons a rest =>
    simp only [minByCplx, Option.some.injEq] at h
    subst h
    obtain ⟨hmem, hle, hall⟩ := foldlMin_spec rest a
    refine ⟨hmem, ?_⟩
    intro p hp
    rcases List.mem_cons.1 hp with h1 | h1
    · rw [h1]; exact hle
    · exact hall p h1

/-- C9: `input_minify_command` first launches the target with the `read`
command on the seed input, or on the lowest-complexity artifact file (chosen
by parsing the float before `--` in each file stem, ignoring non-matching
names, and taking the minimum); a zero (successful) child exit makes the
function fail with the error stating the test case did not trigger a test
failure, and only a nonzero exit proceeds with the chosen file. -/
theorem c9_input_minify_first_phase (parseF : String → Option ℚ)
    (artifactStems : List String) (fileToMinify : String)
    (readExitSuccess : String → Bool) :
    (readExitSuccess ((simplest_input_file parseF artifactStems).getD fileToMinify) = true →
      inputMinifyFirstPhase parseF artifactStems fileToMinify readExitSuccess =
        .error .testCaseDidNotTriggerFailure) ∧
    (readExitSuccess ((simplest_input_file parseF artifactStems).getD fileToMinify) = false →
      inputMinifyFirstPhase parseF artifactStems fileToMinify readExitSuccess =
        .ok ((simplest_input_file parseF artifactStems).getD fileToMinify)) ∧
    (simplest_input_file parseF artifactStems = none →
      artifactStems.filterMap (stemWithCplx parseF) = [] ∧
      (simplest_input_file parseF artifactStems).getD fileToMinify = fileToMinify) ∧
    (∀ f, simplest_input_file parseF artifactStems = some f →
      ∃ q, (f, q) ∈ artifactStems.filterMap (stemWithCplx parseF) ∧
        ∀ p ∈ artifactStems.filterMap (stemWithCplx parseF), q ≤ p.2) := by
  refine ⟨?_, ?_, ?_, ?_⟩
  · intro h
    simp only [inputMinifyFirstPhase, h, if_true]
  · intro h
    simp only [inputMinifyFirstPhase, h, Bool.false_eq_true, if_false]
  · intro h
    constructor
    · simp only [simplest_input_file, Option.map_eq_none'] at h
      cases hl : artifactStems.filterMap (stemWithCplx parseF) with
      | nil => rfl
      | cons a rest =>
        rw [hl] at h
        simp [minByCplx] at h
    · rw [h]
      rfl
  · intro f h
    simp only [simplest_input_file, Option.map_eq_some'] at h
    obtain ⟨x, hx, hfst⟩ := h
    obtain ⟨hmem, hall⟩ := minByCplx_spec _ x hx
    refine ⟨x.2, ?_, hall⟩
    rw [← hfst]
    exact hmem

/-- Witness for C9: concrete artifact stems `["1000--abc", "3--def",
"nomatch"]`: the matching stems parse to 1000 and 3, the minimum is
`"3--def"`, and with a failing (nonzero) child exit the phase proceeds with
that file. -/
theorem c9_input_minify_first_phase_witness :
    inputMinifyFirstPhase parseFW ["1000--abc", "3--def", "nomatch"] "seed"
      (fun _ => false) = .ok "3--def" := by
  have h := (c9_input_minify_first_phase parseFW ["1000--abc", "3--def", "nomatch"]
    "seed" (fun _ => false)).2.1 rfl
  rw [h]
  rfl

/-- Witness for C1: the either-preservation part applied to the concrete
lawful mutator `idMM` (active on the left) at value 5 with a concrete
mutation, giving an explicit restored pair. -/
theorem c1_round_trip_witness :
    eValidateValue (eLeftOf idMM idMM) 5 = some (Either.left ()) ∧
    eRandomMutate (eLeftOf idMM idMM) 5 (Either.left ()) () () =
      some ((Either.left 5, ()), 6, Either.left ()) ∧
    eUnmutate (eLeftOf idMM idMM) 6 (Either.left ()) (Either.left 5) =
      some (5, Either.left ()) :=
  ⟨rfl, rfl,
    (c1_round_trip.2 Nat Unit Unit Unit Unit Unit Unit Nat Nat Unit Unit Unit Unit
        idMM idMM (fun v c x r _h => rfl) (fun v c x r _h => rfl)).1
      5 (Either.left ()) () () ((Either.left 5, ()), 6, Either.left ()) rfl rfl⟩

end Fuzzcheck
